import Mathlib

/-!
Shallow embedding of the core logic of `terraform-provider-seaweedfs`
(package `seaweedfs`): the IAM error taxonomy and classifier predicates,
the retry/backoff engine, client construction, API-error parsing,
`GetUserPolicy` decoding, the per-user lock registry, and the JSON
policy-document comparator.  Each definition mirrors one Go function from
`seaweedfs/client.go`, `seaweedfs/provider.go` or `seaweedfs/policy_json.go`.
-/

namespace Seaweedfs

/-! ## Error model (`client.go`)

`iamError` mirrors the Go struct of the same name.  Go functions receive a
value of interface type `error`; `errors.As(err, &apiErr)` succeeds exactly
when the error is (or wraps) an `iamError`.  `GoError` models that interface:
`api` is an `iamError`, `ctxCanceled` stands for `ctx.Err()`, and `other`
covers every remaining error value (transport failures, decode failures, ...).
-/

structure IamError where
  code : String
  message : String
deriving DecidableEq

inductive GoError where
  | api (e : IamError)
  | ctxCanceled
  | other (msg : String)
deriving DecidableEq

/-- `errors.As(err, &apiErr)` for the target type `iamError`. -/
def errorsAsIamError : GoError → Option IamError
  | .api e => some e
  | _ => none

/-! ## Classifier predicates (`client.go` lines 382-408, 449-463) -/

/-- `isNoSuchEntityError` from `client.go`. -/
def isNoSuchEntityError (err : GoError) : Bool :=
  match errorsAsIamError err with
  | some apiErr => apiErr.code == "NoSuchEntity"
  | none => false

/-- `isEntityAlreadyExistsError` from `client.go`. -/
def isEntityAlreadyExistsError (err : GoError) : Bool :=
  match errorsAsIamError err with
  | some apiErr => apiErr.code == "EntityAlreadyExists"
  | none => false

/-- `isServiceFailureError` from `client.go`. -/
def isServiceFailureError (err : GoError) : Bool :=
  match errorsAsIamError err with
  | some apiErr =>
      apiErr.code == "ServiceFailure" || apiErr.code == "HTTP500" || apiErr.code == "HTTP503"
  | none => false

/-- `isRetryableIAMError` from `client.go`. -/
def isRetryableIAMError (err : GoError) : Bool :=
  isNoSuchEntityError err || isServiceFailureError err

/-- `isNoSuchBucketError` from `client.go`. -/
def isNoSuchBucketError (err : GoError) : Bool :=
  match errorsAsIamError err with
  | some apiErr =>
      apiErr.code == "NoSuchBucket" || apiErr.code == "NotFound" ||
        apiErr.code == "NoSuchKey" || apiErr.code == "NoSuchEntity"
  | none => false

/-- `isBucketAlreadyExistsError` from `client.go`. -/
def isBucketAlreadyExistsError (err : GoError) : Bool :=
  match errorsAsIamError err with
  | some apiErr => apiErr.code == "BucketAlreadyOwnedByYou" || apiErr.code == "BucketAlreadyExists"
  | none => false

/-! ## Retry engine (`client.go` lines 410-447)

`retryIAMEventuallyConsistent` runs a side-effecting closure `fn` up to
`attempts` times.  The embedding makes the effects explicit: `fn i` is the
result of the `(i+1)`-th invocation (`none` = Go's `nil` error), `ctxDone i`
tells whether the context is already cancelled when the timer after the
`(i+1)`-th attempt is awaited, and the function returns the final error
together with the number of invocations of `fn` that were performed.
The wait durations (`delayMs`, starting at 200 and doubling with a 2000ms
cap) are threaded exactly as in Go although they do not affect the result.
-/

/-- Go's `if attempts < 1 { attempts = 1 }` coercion of the attempt budget. -/
def natAttempts (attempts : Int) : Nat :=
  if attempts < 1 then 1 else attempts.toNat

/-- The `for i := 0; i < attempts; i++` loop body of
`retryIAMEventuallyConsistent`; `remaining = attempts - i` makes the
recursion structural. -/
def retryLoop (fn : Nat → Option GoError) (ctxDone : Nat → Bool) :
    Nat → Nat → Nat → Option GoError → Option GoError × Nat
  | 0, i, _, lastErr => (lastErr, i)
  | remaining + 1, i, delayMs, _ =>
      match fn i with
      | none => (none, i + 1)
      | some err =>
          if isRetryableIAMError err = false then (some err, i + 1)
          else if remaining = 0 then (some err, i + 1)
          else if ctxDone i then (some GoError.ctxCanceled, i + 1)
          else
            retryLoop fn ctxDone remaining (i + 1)
              (if delayMs * 2 > 2000 then 2000 else delayMs * 2) (some err)

/-- `retryIAMEventuallyConsistent` from `client.go`: returns the error result
and the number of times `fn` was invoked. -/
def retryIAMEventuallyConsistent (ctxDone : Nat → Bool) (attempts : Int)
    (fn : Nat → Option GoError) : Option GoError × Nat :=
  retryLoop fn ctxDone (natAttempts attempts) 0 200 none

/-! ## Client construction (`client.go` lines 103-135) -/

structure IamClientConfig where
  endpoint : String
  region : String
  accessKey : String
  secretKey : String
  insecure : Bool

/-- The fields of the constructed `iamClient` that the configuration
determines (the signer and credentials provider are built from them). -/
structure IamClientModel where
  endpoint : String
  region : String
  accessKey : String
  secretKey : String
  insecure : Bool
  timeoutSeconds : Nat

/-- `strings.TrimRight(s, "/")`. -/
def trimRightSlashes (s : String) : String :=
  String.mk (s.data.reverse.dropWhile (· == '/')).reverse

/-- `newIAMClient` from `client.go`. -/
def newIAMClient (cfg : IamClientConfig) : Except String IamClientModel :=
  if cfg.endpoint = "" then .error "endpoint is required"
  else
    let region := if cfg.region = "" then "us-east-1" else cfg.region
    if cfg.accessKey = "" ∨ cfg.secretKey = "" then
      .error "access_key and secret_key are required"
    else
      .ok { endpoint := trimRightSlashes cfg.endpoint, region := region,
            accessKey := cfg.accessKey, secretKey := cfg.secretKey,
            insecure := cfg.insecure, timeoutSeconds := 30 }

/-! ## API error parsing (`client.go` lines 341-380)

`parseAPIError` feeds the body to `xml.Unmarshal` twice (once into the
envelope shape, once into the bare error shape).  The XML decoder is an
external library; its two outcomes enter the embedding as oracle arguments:
`none` models a failed unmarshal, `some` a successful one with the decoded
(possibly empty) fields. -/

/-- Go's `unicode.IsSpace` (the Unicode `White_Space` property). -/
def goIsSpace (c : Char) : Bool :=
  let n := c.toNat
  n == 9 || n == 10 || n == 11 || n == 12 || n == 13 || n == 32 ||
    n == 0x85 || n == 0xA0 || n == 0x1680 || (0x2000 ≤ n && n ≤ 0x200A) ||
    n == 0x2028 || n == 0x2029 || n == 0x202F || n == 0x205F || n == 0x3000

/-- Go's `strings.TrimSpace`. -/
def goTrimSpace (s : String) : String :=
  String.mk ((s.data.dropWhile goIsSpace).reverse.dropWhile goIsSpace).reverse

/-- The synthetic code `fmt.Sprintf("HTTP%d", status)`. -/
def httpStatusCode (status : Nat) : String := "HTTP" ++ toString status

/-- The decoded `iamErrorEnvelope` struct: top-level `Code`/`Message` fields
and the nested `Error` element's fields. -/
structure IamErrorEnvelope where
  code : String
  message : String
  errorCode : String
  errorMessage : String
deriving DecidableEq

/-- The decoded bare `iamAPIError` struct. -/
structure IamAPIError where
  code : String
  message : String
deriving DecidableEq

/-- `parseAPIError` from `client.go`, over the XML-decode oracles. -/
def parseAPIError (status : Nat) (data : String)
    (envelopeDecode : Option IamErrorEnvelope) (directDecode : Option IamAPIError) :
    IamError :=
  match envelopeDecode with
  | some envelope =>
      let apiErr : IamError := ⟨envelope.errorCode, envelope.errorMessage⟩
      let apiErr := if apiErr.code = "" then ⟨envelope.code, apiErr.message⟩ else apiErr
      let apiErr := if apiErr.message = "" then ⟨apiErr.code, envelope.message⟩ else apiErr
      let apiErr :=
        if apiErr.code = "" ∨ apiErr.message = "" then
          match directDecode with
          | some direct =>
              let a := if apiErr.code = "" then ⟨direct.code, apiErr.message⟩ else apiErr
              if a.message = "" then ⟨a.code, direct.message⟩ else a
          | none => apiErr
        else apiErr
      if apiErr.code ≠ "" ∨ apiErr.message ≠ "" then
        ⟨if apiErr.code = "" then httpStatusCode status else apiErr.code,
          if apiErr.message = "" then goTrimSpace data else apiErr.message⟩
      else ⟨httpStatusCode status, goTrimSpace data⟩
  | none => ⟨httpStatusCode status, goTrimSpace data⟩

/-! ## `GetUserPolicy` decoding (`client.go` lines 224-241) -/

/-- The decoded `getUserPolicyResponse` struct. -/
structure GetUserPolicyResponse where
  userName : String
  policyName : String
  policyDocument : String
deriving DecidableEq

/-- The value of a hexadecimal digit character, as in Go's `unhex`. -/
def hexVal (c : Char) : Option Nat :=
  if '0' ≤ c ∧ c ≤ '9' then some (c.toNat - '0'.toNat)
  else if 'a' ≤ c ∧ c ≤ 'f' then some (c.toNat - 'a'.toNat + 10)
  else if 'A' ≤ c ∧ c ≤ 'F' then some (c.toNat - 'A'.toNat + 10)
  else none

/-- `url.QueryUnescape` on the character level: `%XX` decodes to the byte
`XX`, `+` decodes to a space, a `%` not followed by two hex digits is an
error. -/
def queryUnescapeChars : List Char → Option (List Char)
  | [] => some []
  | '%' :: a :: b :: rest =>
      match hexVal a, hexVal b with
      | some ha, some hb => (queryUnescapeChars rest).map (Char.ofNat (ha * 16 + hb) :: ·)
      | _, _ => none
  | '%' :: _ => none
  | '+' :: rest => (queryUnescapeChars rest).map (' ' :: ·)
  | c :: rest => (queryUnescapeChars rest).map (c :: ·)

/-- `url.QueryUnescape`. -/
def queryUnescape (s : String) : Option String :=
  (queryUnescapeChars s.data).map String.mk

/-- `GetUserPolicy` from `client.go`, over the outcome of `doIAMAction`. -/
def GetUserPolicy (requestResult : Except GoError GetUserPolicyResponse) :
    Except GoError String :=
  match requestResult with
  | .error e => .error e
  | .ok out =>
      match queryUnescape out.policyDocument with
      | none => .ok out.policyDocument
      | some decoded => .ok decoded

/-! ## Per-user lock registry (`provider.go` lines 38-63)

`providerData` holds a global `iamWrite` mutex and a lazily populated map
from user name to a per-user mutex.  The registry is modelled as an
association list from user name to a lock identity (a fresh `Nat` per
created mutex); `withUserLock` is modelled by its sequential trace: the
acquisition/release events in program order around exactly one invocation
of `fn`, whose result (an `error` value) it returns unchanged. -/

inductive LockEvent where
  | lockIamWrite
  | lockUser (lockId : Nat)
  | callFn
  | unlockUser (lockId : Nat)
  | unlockIamWrite
deriving DecidableEq

structure ProviderLocks where
  userLocks : List (String × Nat)
  nextLockId : Nat
deriving DecidableEq

/-- Map lookup in the `userLocks` registry. -/
def lookupLock : List (String × Nat) → String → Option Nat
  | [], _ => none
  | (k, l) :: rest, userName => if k == userName then some l else lookupLock rest userName

/-- `getUserLock` from `provider.go`: return the existing lock for
`userName` or create and register a fresh one. -/
def getUserLock (d : ProviderLocks) (userName : String) : Nat × ProviderLocks :=
  match lookupLock d.userLocks userName with
  | some l => (l, d)
  | none =>
      (d.nextLockId, ⟨(userName, d.nextLockId) :: d.userLocks, d.nextLockId + 1⟩)

/-- `withUserLock` from `provider.go`: result of `fn`, updated registry, and
the trace of lock operations and the `fn` call in program order (the two
deferred unlocks run in reverse acquisition order on every exit path). -/
def withUserLock (d : ProviderLocks) (userName : String) (fnResult : Option GoError) :
    Option GoError × ProviderLocks × List LockEvent :=
  let (lock, d') := getUserLock d userName
  (fnResult, d',
    [.lockIamWrite, .lockUser lock, .callFn, .unlockUser lock, .unlockIamWrite])

/-! ## JSON policy-document comparator (`policy_json.go`)

`normalizeJSONString` feeds the raw string to `json.Unmarshal` into an
untyped `any` value and re-serializes it with `json.Marshal`, which emits a
compact canonical form with object keys sorted (UTF-8 byte order, which
coincides with code-point order); duplicate object keys resolve last-wins.

The embedding parses into `Json` values whose objects are key-sorted
association lists, so two documents that differ only in key order or
whitespace parse to the same value.  A number literal is converted, as
`json.Unmarshal` does through `strconv.ParseFloat`, to the nearest IEEE-754
binary64 value (ties to even, gradual underflow to subnormals and to zero,
an error on overflow past the largest finite float64), and the resulting
float is stored as its exact decimal value `sign × mantissa × 10^exponent10`
with the mantissa freed of trailing zeros (a zero mantissa forces exponent
zero; the sign is kept so that `-0` and `0` stay distinct, as they do for
Go's float64).  Two literals thus parse equal exactly when Go decodes them
to the same float64.  String escapes follow `unquote`, including
`utf16.DecodeRune` surrogate-pair combination; the scanner enforces Go's
`maxNestingDepth` of 10000 open brackets.  The serializer escapes strings
as `json.Marshal` does (including the HTML-safe `<`, `>`, `&` and the
U+2028/U+2029 escapes); its byte format for numbers is the model's
canonical exact decimal rather than Go's shortest-decimal text, an
injective recoding on either side, so equality of canonical forms is
preserved. -/

/-- A JSON number: the exact decimal value of the decoded float64. -/
structure JsonNumber where
  neg : Bool
  mantissa : Nat
  exponent10 : Int
deriving DecidableEq

inductive Json where
  | null
  | bool (b : Bool)
  | num (n : JsonNumber)
  | str (s : String)
  | arr (elements : List Json)
  | obj (members : List (String × Json))

/-- JSON scanner whitespace (space, tab, newline, carriage return). -/
def isJsonWs (c : Char) : Bool :=
  c == ' ' || c == '\t' || c == '\n' || c == '\r'

def skipWs : List Char → List Char
  | c :: cs => if isJsonWs c then skipWs cs else c :: cs
  | [] => []

def isDigitChar (c : Char) : Bool := '0' ≤ c && c ≤ '9'

/-- Longest digit run at the head of the input, and the rest. -/
def takeDigits : List Char → List Char × List Char
  | c :: cs =>
      if isDigitChar c then
        let (ds, r) := takeDigits cs
        (c :: ds, r)
      else ([], c :: cs)
  | [] => ([], [])

/-- The natural number a digit run denotes. -/
def digitsVal (ds : List Char) : Nat :=
  ds.foldl (fun acc c => acc * 10 + (c.toNat - '0'.toNat)) 0

/-- The single-character JSON escapes accepted after a backslash. -/
def unescapeShort : Char → Option Char
  | '"' => some '"'
  | '\\' => some '\\'
  | '/' => some '/'
  | 'b' => some (Char.ofNat 8)
  | 'f' => some (Char.ofNat 12)
  | 'n' => some '\n'
  | 'r' => some '\r'
  | 't' => some '\t'
  | _ => none

/-- One scanning step of a string body on `c :: rest`: the closed string
(left), or a decoded character pushed onto the accumulator with the input
to continue at (right), or a failure.  A `\u` escape in the surrogate
range combines with an immediately following low-surrogate `\u` escape
into one code point, as `utf16.DecodeRune` does inside Go's `unquote`; a
lone or mismatched surrogate becomes U+FFFD and scanning resumes right
after it. -/
def psbStep (acc : List Char) (c : Char) (rest : List Char) :
    Option ((String × List Char) ⊕ (List Char × List Char)) :=
  if c = '"' then some (.inl (String.mk acc.reverse, rest))
  else if c = '\\' then
    match rest with
    | 'u' :: a :: b :: x :: d :: rest2 =>
        match hexVal a, hexVal b, hexVal x, hexVal d with
        | some va, some vb, some vx, some vd =>
            let r := ((va * 16 + vb) * 16 + vx) * 16 + vd
            if 0xD800 ≤ r ∧ r < 0xE000 then
              match rest2 with
              | '\\' :: 'u' :: a2 :: b2 :: x2 :: d2 :: rest3 =>
                  match hexVal a2, hexVal b2, hexVal x2, hexVal d2 with
                  | some wa, some wb, some wx, some wd =>
                      let r2 := ((wa * 16 + wb) * 16 + wx) * 16 + wd
                      if r < 0xDC00 ∧ 0xDC00 ≤ r2 ∧ r2 < 0xE000 then
                        some (.inr
                          (Char.ofNat (0x10000 + (r - 0xD800) * 0x400 + (r2 - 0xDC00)) :: acc,
                            rest3))
                      else
                        some (.inr (Char.ofNat 0xFFFD :: acc,
                          '\\' :: 'u' :: a2 :: b2 :: x2 :: d2 :: rest3))
                  | _, _, _, _ =>
                      some (.inr (Char.ofNat 0xFFFD :: acc,
                        '\\' :: 'u' :: a2 :: b2 :: x2 :: d2 :: rest3))
              | _ => some (.inr (Char.ofNat 0xFFFD :: acc, rest2))
            else some (.inr (Char.ofNat r :: acc, rest2))
        | _, _, _, _ => none
    | e :: rest2 =>
        match unescapeShort e with
        | some ch => some (.inr (ch :: acc, rest2))
        | none => none
    | [] => none
  else if c.toNat < 0x20 then none
  else some (.inr (c :: acc, rest))

/-- The string-body scanner on a step budget (any budget past the input
length acts the same, each step consuming at least one character). -/
def parseStringBodyF : Nat → List Char → List Char → Option (String × List Char)
  | 0, _, _ => none
  | _ + 1, _, [] => none
  | fuel + 1, acc, c :: rest =>
      match psbStep acc c rest with
      | some (.inl out) => some out
      | some (.inr y) => parseStringBodyF fuel y.1 y.2
      | none => none

/-- Body of a JSON string after the opening quote: ends at the closing
quote, decodes escapes (combining surrogate pairs), rejects raw control
characters. -/
def parseStringBody (acc cs : List Char) : Option (String × List Char) :=
  parseStringBodyF (cs.length + 1) acc cs

/-- Fraction part: digits after a `.` (at least one required), or nothing. -/
def parseFrac : List Char → Option (List Char × List Char)
  | [] => some (([] : List Char), [])
  | c :: r =>
      if c = '.' then
        match takeDigits r with
        | ([], _) => none
        | (ds, rest) => some (ds, rest)
      else some (([] : List Char), c :: r)

/-- Exponent digits after `e`/`E` and an optional sign. -/
def parseExpTail (r : List Char) : Option (Int × List Char) :=
  let signAndRest : Int × List Char :=
    match r with
    | [] => (1, [])
    | c :: q => if c = '+' then (1, q) else if c = '-' then (-1, q) else (1, c :: q)
  match takeDigits signAndRest.2 with
  | ([], _) => none
  | (ds, rest) => some (signAndRest.1 * (digitsVal ds : Int), rest)

/-- Exponent part: `e`/`E` then signed digits, or nothing. -/
def parseExp : List Char → Option (Int × List Char)
  | [] => some ((0 : Int), [])
  | c :: r => if c = 'e' ∨ c = 'E' then parseExpTail r else some ((0 : Int), c :: r)

/-- Move factors of ten from the mantissa into the exponent (the fuel only
bounds the recursion; `fuel ≥ m` always suffices). -/
def stripZeros : Nat → Nat → Int → Nat × Int
  | 0, m, e => (m, e)
  | fuel + 1, m, e =>
      if m ≠ 0 ∧ m % 10 = 0 then stripZeros fuel (m / 10) (e + 1) else (m, e)

/-- Doubling search for an exponent with `n < 2^c`: the fuel is only a
termination bound, `fuel = n` always suffices. -/
def log2UB : Nat → Nat → Nat → Nat
  | 0, _, c => c
  | fuel + 1, n, c => if n < 2 ^ c then c else log2UB fuel n (2 * c)

/-- Binary search for `⌊log2 n⌋` under the invariant `2^lo ≤ n < 2^hi`. -/
def log2BS (n : Nat) : Nat → Nat → Nat → Nat
  | 0, lo, _ => lo
  | fuel + 1, lo, hi =>
      if hi ≤ lo + 1 then lo
      else
        if 2 ^ ((lo + hi) / 2) ≤ n then log2BS n fuel ((lo + hi) / 2) hi
        else log2BS n fuel lo ((lo + hi) / 2)

/-- `⌊log2 n⌋` (zero for zero), by exponent doubling then binary search, so
the recursion depth stays logarithmic in the bit length. -/
def natLog2 (n : Nat) : Nat :=
  if n ≤ 1 then 0 else log2BS n (log2UB n n 1) 0 (log2UB n n 1)

/-- Round `num / den` to the nearest integer, ties to even. -/
def divRoundEven (num den : Nat) : Nat :=
  if den < 2 * (num % den) ∨ (2 * (num % den) = den ∧ (num / den) % 2 = 1) then
    num / den + 1
  else num / den

/-- Numerator and denominator of `A / B · 2^(-p)`. -/
def ratScale (A B : Nat) (p : Int) : Nat × Nat :=
  if 0 ≤ p then (A, B * 2 ^ p.toNat) else (A * 2 ^ (-p).toNat, B)

/-- Round `A / B · 2^(-p)` to the nearest integer, ties to even. -/
def roundAt (A B : Nat) (p : Int) : Nat :=
  divRoundEven (ratScale A B p).1 (ratScale A B p).2

/-- `⌊log2 (A/B)⌋` for positive naturals. -/
def floorLog2Rat (A B : Nat) : Int :=
  (natLog2 ((A * 2 ^ (natLog2 B + 2)) / B) : Int) - (natLog2 B + 2 : Nat)

/-- Correctly rounded (nearest, ties to even) IEEE-754 binary64 value of
the positive rational `A/B`, as a mantissa `f` and binary exponent `p`
with value `f·2^p`; `none` on overflow past the largest finite value,
gradual underflow to subnormals and to zero below them — exactly the
rounding and the error condition of `strconv.ParseFloat` on a positive
decimal. -/
def roundFloat (A B : Nat) : Option (Nat × Int) :=
  let p : Int := floorLog2Rat A B - 52
  if p < -1074 then
    some (roundAt A B (-1074), -1074)
  else
    let f := roundAt A B p
    if f = 2 ^ 53 then
      if (971 : Int) < p + 1 then none else some (2 ^ 52, p + 1)
    else
      if (971 : Int) < p then none else some (f, p)

/-- The exact decimal value `m·10^e` of the float `f·2^p`, with trailing
powers of ten moved into the exponent; zero is `(0, 0)`. -/
def float2dec (f : Nat) (p : Int) : Nat × Int :=
  if f = 0 then (0, 0)
  else if 0 ≤ p then
    stripZeros (f * 2 ^ p.toNat) (f * 2 ^ p.toNat) 0
  else
    stripZeros (f * 5 ^ (-p).toNat) (f * 5 ^ (-p).toNat) p

/-- Go's float64 reading of the decimal `m·10^e` (`json.Unmarshal` feeds
the literal to `strconv.ParseFloat`: correctly rounded, `none` exactly on
overflow), stored back as the exact decimal value of the resulting
float. -/
def decToFloatDec (m : Nat) (e : Int) : Option (Nat × Int) :=
  if m = 0 then some (0, 0)
  else
    match roundFloat (if 0 ≤ e then m * 10 ^ e.toNat else m)
        (if 0 ≤ e then 1 else 10 ^ (-e).toNat) with
    | none => none
    | some fp => some (float2dec fp.1 fp.2)

/-- The digits of a JSON number after the optional minus sign: an integer
part with no leading zero, optional fraction, optional exponent; the
decimal value is then decoded to float64 and stored exactly. -/
def parseNumberCore (neg : Bool) (cs1 : List Char) : Option (JsonNumber × List Char) :=
  match takeDigits cs1 with
  | ([], _) => none
  | (d :: ds, cs2) =>
      if d == '0' && !ds.isEmpty then none
      else
        match parseFrac cs2 with
        | none => none
        | some (fracDs, cs3) =>
            match parseExp cs3 with
            | none => none
            | some (expVal, cs4) =>
                match decToFloatDec (digitsVal (d :: ds ++ fracDs))
                    (expVal - (fracDs.length : Int)) with
                | none => none
                | some me => some (⟨neg, me.1, me.2⟩, cs4)

/-- A JSON number per Go's grammar: optional minus, then the digits. -/
def parseNumber (cs : List Char) : Option (JsonNumber × List Char) :=
  match cs with
  | [] => parseNumberCore false []
  | c :: r => if c = '-' then parseNumberCore true r else parseNumberCore false (c :: r)

/-- Lexicographic strict order on character lists by code point; on UTF-8
strings this coincides with the byte order `sort.Strings` uses. -/
def charListLt : List Char → List Char → Bool
  | [], [] => false
  | [], _ :: _ => true
  | _ :: _, [] => false
  | a :: as, b :: bs =>
      if a.toNat < b.toNat then true
      else if b.toNat < a.toNat then false
      else charListLt as bs

/-- The strict key order `json.Marshal` sorts object keys by. -/
def strLtB (a b : String) : Bool := charListLt a.data b.data

/-- Insert a member into a key-sorted member list; an equal key replaces the
stored value (`m[k] = v`: the last duplicate wins). -/
def insertMember (k : String) (v : Json) : List (String × Json) → List (String × Json)
  | [] => [(k, v)]
  | (k0, v0) :: rest =>
      if strLtB k k0 then (k, v) :: (k0, v0) :: rest
      else if k = k0 then (k, v) :: rest
      else (k0, v0) :: insertMember k v rest

/-- Build the key-sorted map a Go `map[string]any` holds from the members
in textual order. -/
def sortMembers (ms : List (String × Json)) : List (String × Json) :=
  ms.foldl (fun acc kv => insertMember kv.1 kv.2 acc) []

mutual

/-- One JSON value (structural on the fuel, which `parseJson` seeds with
more than the input length; `d` is the current bracket-nesting depth, and
opening a bracket beyond Go's scanner limit `maxNestingDepth = 10000`
fails as `pushParseState` does). -/
def parseVal : Nat → Nat → List Char → Option (Json × List Char)
  | 0, _, _ => none
  | fuel + 1, d, cs =>
      match skipWs cs with
      | 'n' :: 'u' :: 'l' :: 'l' :: r => some (.null, r)
      | 't' :: 'r' :: 'u' :: 'e' :: r => some (.bool true, r)
      | 'f' :: 'a' :: 'l' :: 's' :: 'e' :: r => some (.bool false, r)
      | '"' :: r =>
          match parseStringBody [] r with
          | some (s, r1) => some (.str s, r1)
          | none => none
      | '[' :: r =>
          if 10000 ≤ d then none
          else
            match skipWs r with
            | [] => none
            | c :: r1 =>
                if c = ']' then some (.arr [], r1)
                else
                  match parseElems fuel (d + 1) (c :: r1) with
                  | some (es, r2) => some (.arr es, r2)
                  | none => none
      | '{' :: r =>
          if 10000 ≤ d then none
          else
            match skipWs r with
            | [] => none
            | c :: r1 =>
                if c = '}' then some (.obj [], r1)
                else
                  match parseMembers fuel (d + 1) (c :: r1) with
                  | some (ms, r2) => some (.obj (sortMembers ms), r2)
                  | none => none
      | c :: r =>
          if c == '-' || isDigitChar c then
            match parseNumber (c :: r) with
            | some (n, r1) => some (.num n, r1)
            | none => none
          else none
      | [] => none

/-- One or more comma-separated array elements up to the closing `]`. -/
def parseElems : Nat → Nat → List Char → Option (List Json × List Char)
  | 0, _, _ => none
  | fuel + 1, d, cs =>
      match parseVal fuel d cs with
      | none => none
      | some (v, r) =>
          match skipWs r with
          | ',' :: r1 =>
              match parseElems fuel d r1 with
              | some (vs, r2) => some (v :: vs, r2)
              | none => none
          | ']' :: r1 => some ([v], r1)
          | _ => none

/-- One or more comma-separated object members up to the closing `}`. -/
def parseMembers : Nat → Nat → List Char → Option (List (String × Json) × List Char)
  | 0, _, _ => none
  | fuel + 1, d, cs =>
      match skipWs cs with
      | '"' :: r =>
          match parseStringBody [] r with
          | none => none
          | some (k, r1) =>
              match skipWs r1 with
              | ':' :: r2 =>
                  match parseVal fuel d r2 with
                  | none => none
                  | some (v, r3) =>
                      match skipWs r3 with
                      | ',' :: r4 =>
                          match parseMembers fuel d r4 with
                          | some (ms, r5) => some ((k, v) :: ms, r5)
                          | none => none
                      | '}' :: r4 => some ([(k, v)], r4)
                      | _ => none
              | _ => none
      | _ => none

end

/-- `json.Unmarshal` of a whole document into `any`: one value from
bracket depth zero, then only trailing whitespace. -/
def parseJson (s : String) : Option Json :=
  match parseVal (s.data.length + 1) 0 s.data with
  | some (v, rest) => if (skipWs rest).isEmpty then some v else none
  | none => none

mutual

/-- Bracket-nesting depth of a value (scalars are zero). -/
def jsonDepth : Json → Nat
  | .null => 0
  | .bool _ => 0
  | .num _ => 0
  | .str _ => 0
  | .arr es => jsonDepthList es + 1
  | .obj ms => jsonDepthMembers ms + 1

/-- Largest bracket-nesting depth among the elements. -/
def jsonDepthList : List Json → Nat
  | [] => 0
  | e :: es => max (jsonDepth e) (jsonDepthList es)

/-- Largest bracket-nesting depth among the member values. -/
def jsonDepthMembers : List (String × Json) → Nat
  | [] => 0
  | kv :: ms => max (jsonDepth kv.2) (jsonDepthMembers ms)

end

/-- The character of a decimal digit value. -/
def digitChar (n : Nat) : Char := Char.ofNat ('0'.toNat + n)

/-- The character of a hexadecimal digit value (lowercase, as Go emits). -/
def hexDigitChar (n : Nat) : Char :=
  if n < 10 then Char.ofNat ('0'.toNat + n) else Char.ofNat ('a'.toNat + (n - 10))

/-- Decimal digits of `n`, most significant first, onto `acc` (the fuel
only bounds the recursion; `fuel > n` always suffices). -/
def natDigitsAux : Nat → Nat → List Char → List Char
  | 0, _, acc => acc
  | fuel + 1, n, acc =>
      if n < 10 then digitChar n :: acc
      else natDigitsAux fuel (n / 10) (digitChar (n % 10) :: acc)

/-- Decimal digit characters of `n`. -/
def natDigits (n : Nat) : List Char := natDigitsAux (n + 1) n []

/-- Characters of an integer: optional minus then decimal digits. -/
def intChars (i : Int) : List Char :=
  (if i < 0 then ['-'] else []) ++ natDigits i.natAbs

/-- The exponent part of a rendered number: nothing for exponent zero. -/
def expChars (e : Int) : List Char :=
  if e == 0 then [] else 'e' :: intChars e

/-- Canonical characters of a normalized number: sign, mantissa digits and,
for a nonzero exponent, an `e` part. -/
def renderNumber (n : JsonNumber) : List Char :=
  (if n.neg then ['-'] else []) ++ natDigits n.mantissa ++ expChars n.exponent10

/-- One string character as `json.Marshal` emits it: quote, backslash and
control characters escaped, plus the HTML-safe `<`, `>`, `&` and the
U+2028/U+2029 escapes. -/
def escapeChar (c : Char) : List Char :=
  if c == '"' then ['\\', '"']
  else if c == '\\' then ['\\', '\\']
  else if c == '\n' then ['\\', 'n']
  else if c == '\r' then ['\\', 'r']
  else if c == '\t' then ['\\', 't']
  else if c.toNat < 0x20 then
    ['\\', 'u', '0', '0', hexDigitChar (c.toNat / 16), hexDigitChar (c.toNat % 16)]
  else if c == '<' then ['\\', 'u', '0', '0', '3', 'c']
  else if c == '>' then ['\\', 'u', '0', '0', '3', 'e']
  else if c == '&' then ['\\', 'u', '0', '0', '2', '6']
  else if c.toNat = 0x2028 then ['\\', 'u', '2', '0', '2', '8']
  else if c.toNat = 0x2029 then ['\\', 'u', '2', '0', '2', '9']
  else [c]

/-- A rendered JSON string: quoted, characters escaped. -/
def renderString (s : String) : List Char :=
  '"' :: (s.data.flatMap escapeChar ++ ['"'])

mutual

/-- The compact canonical serialization `json.Marshal` produces. -/
def renderL : Json → List Char
  | .num n => renderNumber n
  | .str s => renderString s
  | .bool b => if b then ['t', 'r', 'u', 'e'] else ['f', 'a', 'l', 's', 'e']
  | .null => ['n', 'u', 'l', 'l']
  | .arr es => '[' :: (renderList es ++ [']'])
  | .obj ms => '{' :: (renderMembers ms ++ ['}'])

/-- Comma-separated renderings of the array elements. -/
def renderList : List Json → List Char
  | [] => []
  | [e] => renderL e
  | e :: e2 :: es => renderL e ++ ',' :: renderList (e2 :: es)

/-- Comma-separated `"key":value` renderings of the members. -/
def renderMembers : List (String × Json) → List Char
  | [] => []
  | [(k, v)] => renderString k ++ ':' :: renderL v
  | (k, v) :: m2 :: ms => renderString k ++ ':' :: renderL v ++ ',' :: renderMembers (m2 :: ms)

end

/-- A whole rendered document. -/
def renderJson (v : Json) : String := String.mk (renderL v)

/-- A remainder that cannot extend a JSON number: empty, or starting with a
character that is neither a digit nor `.`, `e`, `E`.  Every delimiter a
rendered document puts after a number (`,`, `]`, `}`, end of input)
qualifies. -/
def numStop : List Char → Bool
  | [] => true
  | c :: _ => !(isDigitChar c || c == '.' || c == 'e' || c == 'E')

/-- Canonical binary64 mantissa/exponent pairs: zero, normal numbers, and
subnormal numbers. -/
def canonicalFP (f : Nat) (p : Int) : Prop :=
  (f = 0 ∧ p = 0) ∨ (2 ^ 52 ≤ f ∧ f < 2 ^ 53 ∧ -1074 ≤ p ∧ p ≤ 971) ∨
    (0 < f ∧ f < 2 ^ 52 ∧ p = -1074)

/-- Decimals arising as exact values of canonical binary64 floats: the
numbers a parse can store. -/
def isFloatDecimal (n : JsonNumber) : Prop :=
  ∃ f p, canonicalFP f p ∧ float2dec f p = (n.mantissa, n.exponent10)

/-- The invariant of parsed values: numbers exact decimals of floats,
object member lists strictly sorted by key.  Every `parseJson` result
satisfies it and the canonical serialization is injective on it (within
the scanner's depth limit). -/
inductive JsonWf : Json → Prop
  | null : JsonWf .null
  | bool (b : Bool) : JsonWf (.bool b)
  | num (n : JsonNumber) : isFloatDecimal n → JsonWf (.num n)
  | str (s : String) : JsonWf (.str s)
  | arr (es : List Json) : (∀ e ∈ es, JsonWf e) → JsonWf (.arr es)
  | obj (ms : List (String × Json)) :
      List.Pairwise (fun x y => strLtB x.1 y.1 = true) ms →
      (∀ kv ∈ ms, JsonWf kv.2) → JsonWf (.obj ms)

/-- `normalizeJSONString` from `policy_json.go`: parse as generic JSON,
re-serialize canonically (`json.Marshal` on the decoded value cannot
fail). -/
def normalizeJSONString (raw : String) : Option String :=
  (parseJson raw).map renderJson

/-- `policiesSemanticallyEqual` from `policy_json.go`. -/
def policiesSemanticallyEqual (a b : String) : Bool :=
  match normalizeJSONString a, normalizeJSONString b with
  | some na, some nb => na == nb
  | _, _ => goTrimSpace a == goTrimSpace b

/-! ### Interleaving semantics of `withUserLock`

Each thread `t` executes the protocol of `withUserLock` for its user name
`key t`: lock `iamWrite`; lock the per-user mutex; run the body; unlock the
per-user mutex; unlock `iamWrite` (the deferred unlocks in reverse
acquisition order).  All callers with the same user name receive the same
mutex from the registry, so per-user mutex ownership is recorded per
user-name string.  `LockStep` is one scheduler step of one thread;
`reachableLockState` closes it under arbitrary interleavings from the
initial state (all threads idle, both locks free). -/

inductive ThreadPhase where
  | idle
  | gateHeld
  | inBody
  | bodyDone
  | finished
deriving DecidableEq

structure LockState where
  phase : Nat → ThreadPhase
  gateOwner : Option Nat
  userLockOwner : String → Option Nat

def initialLockState : LockState :=
  ⟨fun _ => .idle, none, fun _ => none⟩

inductive LockStep (key : Nat → String) : LockState → LockState → Prop
  | lockGate (s : LockState) (t : Nat) :
      s.phase t = .idle → s.gateOwner = none →
      LockStep key s ⟨Function.update s.phase t .gateHeld, some t, s.userLockOwner⟩
  | lockUser (s : LockState) (t : Nat) :
      s.phase t = .gateHeld → s.userLockOwner (key t) = none →
      LockStep key s
        ⟨Function.update s.phase t .inBody, s.gateOwner,
          Function.update s.userLockOwner (key t) (some t)⟩
  | unlockUser (s : LockState) (t : Nat) :
      s.phase t = .inBody →
      LockStep key s
        ⟨Function.update s.phase t .bodyDone, s.gateOwner,
          Function.update s.userLockOwner (key t) none⟩
  | unlockGate (s : LockState) (t : Nat) :
      s.phase t = .bodyDone →
      LockStep key s ⟨Function.update s.phase t .finished, none, s.userLockOwner⟩

def reachableLockState (key : Nat → String) (s : LockState) : Prop :=
  Relation.ReflTransGen (LockStep key) initialLockState s

/-- Any thread past `iamWrite.Lock()` and before `iamWrite.Unlock()` owns
the global write gate. -/
def lockInvariant (s : LockState) : Prop :=
  ∀ t, (s.phase t = .gateHeld ∨ s.phase t = .inBody ∨ s.phase t = .bodyDone) →
    s.gateOwner = some t

/-- The state used by the C9 witness: thread 0 has acquired the gate. -/
def lockDemoState1 : LockState :=
  ⟨Function.update initialLockState.phase 0 .gateHeld, some 0,
    initialLockState.userLockOwner⟩

/-- The state used by the C9 witness: thread 0 also holds the per-user lock
for "alice" and is executing its body. -/
def lockDemoState2 : LockState :=
  ⟨Function.update lockDemoState1.phase 0 .inBody, some 0,
    Function.update lockDemoState1.userLockOwner "alice" (some 0)⟩

end Seaweedfs

namespace Seaweedfs

/-! ## Theorems -/

/-- C2: every classifier predicate decides membership exactly by the error's
code string: `NoSuchEntity` is not-found and retryable, `EntityAlreadyExists`
is already-exists and not retryable, `BucketAlreadyOwnedByYou` and
`BucketAlreadyExists` are bucket-already-exists, `ServiceFailure`/`HTTP500`/
`HTTP503` are service-failure, and retryable is exactly not-found OR
service-failure. -/
theorem classifier_predicates_by_code :
    (∀ e : IamError, isNoSuchEntityError (.api e) = (e.code == "NoSuchEntity")) ∧
    (∀ e : IamError, isEntityAlreadyExistsError (.api e) = (e.code == "EntityAlreadyExists")) ∧
    (∀ e : IamError, isBucketAlreadyExistsError (.api e)
        = (e.code == "BucketAlreadyOwnedByYou" || e.code == "BucketAlreadyExists")) ∧
    (∀ e : IamError, isServiceFailureError (.api e)
        = (e.code == "ServiceFailure" || e.code == "HTTP500" || e.code == "HTTP503")) ∧
    (∀ err : GoError, isRetryableIAMError err
        = (isNoSuchEntityError err || isServiceFailureError err)) ∧
    (∀ m : String, isRetryableIAMError (.api ⟨"NoSuchEntity", m⟩) = true) ∧
    (∀ m : String, isRetryableIAMError (.api ⟨"EntityAlreadyExists", m⟩) = false) := by
  refine ⟨fun e => rfl, fun e => rfl, fun e => rfl, fun e => rfl, fun err => rfl, ?_, ?_⟩
  · intro m
    simp [isRetryableIAMError, isNoSuchEntityError, errorsAsIamError]
  · intro m
    simp [isRetryableIAMError, isNoSuchEntityError, isServiceFailureError, errorsAsIamError]

/-- One loop iteration whose invocation succeeds returns `nil`. -/
theorem retryLoop_step_success {fn : Nat → Option GoError} {ctxDone : Nat → Bool}
    {i : Nat} (he : fn i = none) (r delayMs : Nat) (lastErr : Option GoError) :
    retryLoop fn ctxDone (r + 1) i delayMs lastErr = (none, i + 1) := by
  simp [retryLoop, he]

/-- One loop iteration whose invocation fails non-retryably returns that
error unchanged. -/
theorem retryLoop_step_fatal {fn : Nat → Option GoError} {ctxDone : Nat → Bool}
    {i : Nat} {e : GoError} (he : fn i = some e) (hret : isRetryableIAMError e = false)
    (r delayMs : Nat) (lastErr : Option GoError) :
    retryLoop fn ctxDone (r + 1) i delayMs lastErr = (some e, i + 1) := by
  simp [retryLoop, he, hret]

/-- The last loop iteration failing retryably returns the last error. -/
theorem retryLoop_step_last {fn : Nat → Option GoError} {ctxDone : Nat → Bool}
    {i : Nat} {e : GoError} (he : fn i = some e) (hret : isRetryableIAMError e = true)
    (delayMs : Nat) (lastErr : Option GoError) :
    retryLoop fn ctxDone 1 i delayMs lastErr = (some e, i + 1) := by
  simp [retryLoop, he, hret]

/-- A non-final loop iteration failing retryably waits and recurses with the
doubled-and-capped delay. -/
theorem retryLoop_step_retry {fn : Nat → Option GoError} {ctxDone : Nat → Bool}
    {i r : Nat} {e : GoError} (he : fn i = some e) (hret : isRetryableIAMError e = true)
    (hr : r ≠ 0) (hc : ctxDone i = false) (delayMs : Nat) (lastErr : Option GoError) :
    retryLoop fn ctxDone (r + 1) i delayMs lastErr
      = retryLoop fn ctxDone r (i + 1)
          (if delayMs * 2 > 2000 then 2000 else delayMs * 2) (some e) := by
  simp [retryLoop, he, hret, hr, hc]

/-- Running the loop over `k` consecutive retryable failures followed by a
success stops with `nil` after `k + 1` further invocations, provided more
than `k` iterations remain and the context is never cancelled. -/
theorem retryLoop_succeeds_after (fn : Nat → Option GoError) (ctxDone : Nat → Bool)
    (hctx : ∀ j, ctxDone j = false) :
    ∀ (k remaining i delayMs : Nat) (lastErr : Option GoError),
      (∀ j, j < k → ∃ e, fn (i + j) = some e ∧ isRetryableIAMError e = true) →
      fn (i + k) = none → k < remaining →
      retryLoop fn ctxDone remaining i delayMs lastErr = (none, i + (k + 1))
  | 0, remaining, i, delayMs, lastErr, _, hsucc, hrem => by
      obtain ⟨r, rfl⟩ : ∃ r, remaining = r + 1 := ⟨remaining - 1, by omega⟩
      rw [retryLoop_step_success (by simpa using hsucc)]
  | k + 1, remaining, i, delayMs, lastErr, hfail, hsucc, hrem => by
      obtain ⟨r, rfl⟩ : ∃ r, remaining = r + 1 := ⟨remaining - 1, by omega⟩
      obtain ⟨e, he, hret⟩ := hfail 0 (by omega)
      rw [retryLoop_step_retry (by simpa using he) hret (by omega) (hctx i)]
      have := retryLoop_succeeds_after fn ctxDone hctx k r (i + 1)
        (if delayMs * 2 > 2000 then 2000 else delayMs * 2) (some e)
        (fun j hj => by
          obtain ⟨e', he', hret'⟩ := hfail (j + 1) (by omega)
          exact ⟨e', by rw [show i + 1 + j = i + (j + 1) from by omega]; exact he', hret'⟩)
        (by rw [show i + 1 + k = i + (k + 1) from by omega]; exact hsucc)
        (by omega)
      rw [this]
      simp only [Prod.mk.injEq, true_and]
      omega

/-- Running the loop over invocations that all fail with a retryable error
exhausts the remaining budget and returns the last observed error. -/
theorem retryLoop_exhausts (fn : Nat → Option GoError) (ctxDone : Nat → Bool)
    (hctx : ∀ j, ctxDone j = false)
    (hfail : ∀ j, ∃ e, fn j = some e ∧ isRetryableIAMError e = true) :
    ∀ (remaining i delayMs : Nat) (lastErr : Option GoError), 0 < remaining →
      retryLoop fn ctxDone remaining i delayMs lastErr = (fn (i + remaining - 1), i + remaining)
  | 0, _, _, _, hrem => absurd hrem (by omega)
  | r + 1, i, delayMs, lastErr, _ => by
      obtain ⟨e, he, hret⟩ := hfail i
      by_cases hr : r = 0
      · subst hr
        rw [retryLoop_step_last he hret]
        simp [he]
      · rw [retryLoop_step_retry he hret hr (hctx i)]
        rw [retryLoop_exhausts fn ctxDone hctx hfail r (i + 1) _ (some e) (by omega)]
        simp only [Prod.mk.injEq]
        constructor
        · congr 1
          omega
        · omega

/-- C1: the retry engine invokes `fn` exactly as the spec prescribes: after
`k` retryable failures followed by a success it returns `nil` after exactly
`k + 1` invocations when the (coerced) budget admits them; a non-retryable
first error is returned unchanged after exactly one invocation; when every
invocation fails with a retryable error it performs exactly `max(attempts,1)`
invocations and returns the last observed error; and the coerced budget
`natAttempts` is exactly `max(attempts, 1)`. -/
theorem retryIAM_invocation_counts :
    (∀ (ctxDone : Nat → Bool) (attempts : Int) (fn : Nat → Option GoError) (k : Nat),
      (∀ j, ctxDone j = false) →
      (∀ j, j < k → ∃ e, fn j = some e ∧ isRetryableIAMError e = true) →
      fn k = none → k + 1 ≤ natAttempts attempts →
      retryIAMEventuallyConsistent ctxDone attempts fn = (none, k + 1)) ∧
    (∀ (ctxDone : Nat → Bool) (attempts : Int) (fn : Nat → Option GoError) (e : GoError),
      fn 0 = some e → isRetryableIAMError e = false →
      retryIAMEventuallyConsistent ctxDone attempts fn = (some e, 1)) ∧
    (∀ (ctxDone : Nat → Bool) (attempts : Int) (fn : Nat → Option GoError),
      (∀ j, ctxDone j = false) →
      (∀ j, ∃ e, fn j = some e ∧ isRetryableIAMError e = true) →
      retryIAMEventuallyConsistent ctxDone attempts fn
        = (fn (natAttempts attempts - 1), natAttempts attempts)) ∧
    (∀ attempts : Int, (natAttempts attempts : Int) = max attempts 1) := by
  refine ⟨?_, ?_, ?_, ?_⟩
  · intro ctxDone attempts fn k hctx hfail hsucc hbudget
    have := retryLoop_succeeds_after fn ctxDone hctx k (natAttempts attempts) 0 200 none
      (fun j hj => by simpa using hfail j hj) (by simpa using hsucc) (by omega)
    simpa using this
  · intro ctxDone attempts fn e hfe hret
    have h1 : 0 < natAttempts attempts := by
      unfold natAttempts
      split <;> omega
    obtain ⟨r, hr⟩ : ∃ r, natAttempts attempts = r + 1 := ⟨natAttempts attempts - 1, by omega⟩
    unfold retryIAMEventuallyConsistent
    rw [hr]
    simp [retryLoop, hfe, hret]
  · intro ctxDone attempts fn hctx hfail
    have h1 : 0 < natAttempts attempts := by
      unfold natAttempts
      split <;> omega
    have := retryLoop_exhausts fn ctxDone hctx hfail (natAttempts attempts) 0 200 none h1
    simpa using this
  · intro attempts
    unfold natAttempts
    split <;> rename_i h
    · omega
    · rw [Int.toNat_of_nonneg (by omega)]
      omega

/-- Witness for C1: concrete runs exercising each conjunct of
`retryIAM_invocation_counts` — one retryable failure then success under
budget 3, a non-retryable first failure, and five retryable failures under
budget 5. -/
theorem retryIAM_invocation_counts_witness :
    retryIAMEventuallyConsistent (fun _ => false) 3
        (fun j => if j = 0 then some (.api ⟨"NoSuchEntity", "nf"⟩) else none)
      = (none, 2) ∧
    retryIAMEventuallyConsistent (fun _ => false) 3
        (fun _ => some (.api ⟨"AccessDenied", "no"⟩))
      = (some (.api ⟨"AccessDenied", "no"⟩), 1) ∧
    retryIAMEventuallyConsistent (fun _ => false) 5
        (fun _ => some (.api ⟨"ServiceFailure", "sf"⟩))
      = (some (.api ⟨"ServiceFailure", "sf"⟩), 5) := by
  refine ⟨?_, ?_, ?_⟩
  · exact retryIAM_invocation_counts.1 (fun _ => false) 3 _ 1 (fun _ => rfl)
      (fun j hj => match j, hj with
        | 0, _ => ⟨.api ⟨"NoSuchEntity", "nf"⟩, rfl, rfl⟩)
      rfl (by decide)
  · exact retryIAM_invocation_counts.2.1 (fun _ => false) 3 _
      (.api ⟨"AccessDenied", "no"⟩) rfl rfl
  · exact (retryIAM_invocation_counts.2.2.1 (fun _ => false) 5 _ (fun _ => rfl)
      (fun _ => ⟨.api ⟨"ServiceFailure", "sf"⟩, rfl, rfl⟩)).trans rfl

/-- C7: the no-such-bucket predicate holds exactly for the codes
`NoSuchBucket`, `NotFound`, `NoSuchKey` and `NoSuchEntity`, whatever the
message is. -/
theorem isNoSuchBucketError_by_code :
    ∀ e : IamError, isNoSuchBucketError (.api e)
      = (e.code == "NoSuchBucket" || e.code == "NotFound" ||
          e.code == "NoSuchKey" || e.code == "NoSuchEntity") :=
  fun _ => rfl

/-- C5: `newIAMClient` fails exactly when the endpoint, the access key or
the secret key is empty; any other configuration (an empty region included)
yields a constructed client. -/
theorem newIAMClient_error_iff :
    ∀ cfg : IamClientConfig,
      ((∃ e, newIAMClient cfg = .error e) ↔
        (cfg.endpoint = "" ∨ cfg.accessKey = "" ∨ cfg.secretKey = "")) ∧
      (cfg.endpoint ≠ "" ∧ cfg.accessKey ≠ "" ∧ cfg.secretKey ≠ "" →
        ∃ c, newIAMClient cfg = .ok c) := by
  intro cfg
  unfold newIAMClient
  by_cases h1 : cfg.endpoint = "" <;> by_cases h2 : cfg.accessKey = "" <;>
    by_cases h3 : cfg.secretKey = "" <;>
    simp [h1, h2, h3]

/-- Witness for C5: a configuration with empty region but non-empty
endpoint and keys constructs a client. -/
theorem newIAMClient_error_iff_witness :
    ∃ c, newIAMClient ⟨"http://s3.example.com/", "", "ak", "sk", false⟩ = .ok c :=
  (newIAMClient_error_iff ⟨"http://s3.example.com/", "", "ak", "sk", false⟩).2
    ⟨by decide, by decide, by decide⟩

/-- C6: when neither XML decode produces a code or a message, `parseAPIError`
falls back to the synthetic `HTTP<status>` code with the whitespace-trimmed
raw body as the message. -/
theorem parseAPIError_fallback :
    ∀ (status : Nat) (data : String) (envelopeDecode : Option IamErrorEnvelope)
      (directDecode : Option IamAPIError),
      400 ≤ status →
      (envelopeDecode = none ∨
        ∃ env, envelopeDecode = some env ∧ env.code = "" ∧ env.message = "" ∧
          env.errorCode = "" ∧ env.errorMessage = "") →
      (directDecode = none ∨ ∃ d, directDecode = some d ∧ d.code = "" ∧ d.message = "") →
      parseAPIError status data envelopeDecode directDecode
        = ⟨httpStatusCode status, goTrimSpace data⟩ := by
  intro status data envelopeDecode directDecode _ henv hdir
  rcases henv with rfl | ⟨env, rfl, hc, hm, hec, hem⟩
  · rfl
  · rcases hdir with rfl | ⟨d, rfl, hdc, hdm⟩ <;>
      simp [parseAPIError, hc, hm, hec, hem, *]

/-- Witness for C6: a 500 response whose body decodes to nothing yields
code `HTTP500` and the trimmed body. -/
theorem parseAPIError_fallback_witness :
    parseAPIError 500 "  oops  " none none = ⟨"HTTP500", "oops"⟩ :=
  (parseAPIError_fallback 500 "  oops  " none none (by omega)
    (Or.inl rfl) (Or.inl rfl)).trans (by decide)

/-- C10: `GetUserPolicy` propagates a request error unchanged, returns the
query-unescaped `PolicyDocument` when unescaping succeeds, returns the raw
field with a nil error when unescaping fails, and therefore errors exactly
when the underlying request errors. -/
theorem getUserPolicy_unescape_behavior :
    (∀ e : GoError, GetUserPolicy (.error e) = .error e) ∧
    (∀ (out : GetUserPolicyResponse) (d : String),
      queryUnescape out.policyDocument = some d → GetUserPolicy (.ok out) = .ok d) ∧
    (∀ out : GetUserPolicyResponse,
      queryUnescape out.policyDocument = none →
        GetUserPolicy (.ok out) = .ok out.policyDocument) ∧
    (∀ r : Except GoError GetUserPolicyResponse,
      (∃ e, GetUserPolicy r = .error e) ↔ (∃ e, r = .error e)) := by
  refine ⟨fun e => rfl, ?_, ?_, ?_⟩
  · intro out d h
    simp [GetUserPolicy, h]
  · intro out h
    simp [GetUserPolicy, h]
  · intro r
    match r with
    | .error e => simp [GetUserPolicy]
    | .ok out =>
        simp only [GetUserPolicy]
        constructor
        · rintro ⟨e, he⟩
          split at he <;> simp at he
        · rintro ⟨e, he⟩
          simp at he

/-- Witness for C10: a document with a valid `%2F` escape decodes, one with
a trailing bare `%` is returned raw. -/
theorem getUserPolicy_unescape_behavior_witness :
    GetUserPolicy (.ok ⟨"u", "p", "a%2Fb"⟩) = .ok "a/b" ∧
    GetUserPolicy (.ok ⟨"u", "p", "100%"⟩) = .ok "100%" :=
  ⟨getUserPolicy_unescape_behavior.2.1 ⟨"u", "p", "a%2Fb"⟩ "a/b" (by decide),
   getUserPolicy_unescape_behavior.2.2.1 ⟨"u", "p", "100%"⟩ (by decide)⟩

/-- C8: `withUserLock` returns `fn`'s result unchanged, produces the
acquire-gate / acquire-user-lock / call / release-user-lock / release-gate
trace with exactly one invocation of `fn`, creates the per-key lock on first
reference, reuses an existing lock, and a later call with the same key gets
the same lock back. -/
theorem withUserLock_trace :
    ∀ (d : ProviderLocks) (userName : String) (fnResult : Option GoError),
      (withUserLock d userName fnResult).1 = fnResult ∧
      (withUserLock d userName fnResult).2.2
        = [LockEvent.lockIamWrite, LockEvent.lockUser (getUserLock d userName).1,
            LockEvent.callFn, LockEvent.unlockUser (getUserLock d userName).1,
            LockEvent.unlockIamWrite] ∧
      (withUserLock d userName fnResult).2.2.count LockEvent.callFn = 1 ∧
      (lookupLock d.userLocks userName = none →
        getUserLock d userName
          = (d.nextLockId, ⟨(userName, d.nextLockId) :: d.userLocks, d.nextLockId + 1⟩)) ∧
      (∀ l, lookupLock d.userLocks userName = some l → getUserLock d userName = (l, d)) ∧
      (getUserLock (withUserLock d userName fnResult).2.1 userName
        = ((getUserLock d userName).1, (withUserLock d userName fnResult).2.1)) := by
  intro d userName fnResult
  refine ⟨rfl, rfl, by simp [withUserLock, List.count_cons], ?_, ?_, ?_⟩
  · intro h
    simp [getUserLock, h]
  · intro l h
    simp [getUserLock, h]
  · match h : lookupLock d.userLocks userName with
    | some l =>
        simp [withUserLock, getUserLock, h]
    | none =>
        simp [withUserLock, getUserLock, h, lookupLock]

/-- Witness for C8: on an empty registry, "alice" gets the fresh lock `0`
and the registry records it. -/
theorem withUserLock_trace_witness :
    getUserLock ⟨[], 0⟩ "alice" = (0, ⟨[("alice", 0)], 1⟩) :=
  (withUserLock_trace ⟨[], 0⟩ "alice" none).2.2.2.1 rfl

/-- The initial state satisfies the gate-ownership invariant. -/
theorem lockInvariant_initial : lockInvariant initialLockState := by
  intro t h
  rcases h with h | h | h <;> simp [initialLockState] at h

/-- Every scheduler step preserves the gate-ownership invariant. -/
theorem lockInvariant_step {key : Nat → String} {s s' : LockState}
    (hstep : LockStep key s s') (hinv : lockInvariant s) : lockInvariant s' := by
  cases hstep with
  | lockGate t hidle hfree =>
      intro u hu
      by_cases hut : u = t
      · subst hut
        rfl
      · exfalso
        simp only [Function.update_apply, hut, if_false] at hu
        have := hinv u hu
        rw [hfree] at this
        exact Option.noConfusion this
  | lockUser t hph hfree =>
      intro u hu
      by_cases hut : u = t
      · subst hut
        exact hinv u (Or.inl hph)
      · simp only [Function.update_apply, hut, if_false] at hu
        exact hinv u hu
  | unlockUser t hph =>
      intro u hu
      by_cases hut : u = t
      · subst hut
        exact hinv u (Or.inr (Or.inl hph))
      · simp only [Function.update_apply, hut, if_false] at hu
        exact hinv u hu
  | unlockGate t hph =>
      intro u hu
      exfalso
      by_cases hut : u = t
      · subst hut
        simp only [Function.update_apply, if_pos rfl] at hu
        rcases hu with h | h | h <;> exact ThreadPhase.noConfusion h
      · simp only [Function.update_apply, hut, if_false] at hu
        have h1 := hinv u hu
        have h2 := hinv t (Or.inr (Or.inr hph))
        rw [h1] at h2
        exact hut (Option.some.inj h2)

/-- The gate-ownership invariant holds in every reachable state. -/
theorem lockInvariant_reachable {key : Nat → String} {s : LockState}
    (h : reachableLockState key s) : lockInvariant s := by
  induction h with
  | refl => exact lockInvariant_initial
  | tail _ hstep ih => exact lockInvariant_step hstep ih

/-- C9: in every reachable interleaving, no two distinct threads execute
their wrapped function bodies at the same time — for the same user name in
particular, and across all user names because the global write gate already
serializes every call. -/
theorem withUserLock_mutual_exclusion :
    ∀ (key : Nat → String) (s : LockState), reachableLockState key s →
      (∀ t1 t2 : Nat, key t1 = key t2 →
        s.phase t1 = .inBody → s.phase t2 = .inBody → t1 = t2) ∧
      (∀ t1 t2 : Nat, s.phase t1 = .inBody → s.phase t2 = .inBody → t1 = t2) := by
  intro key s hreach
  have hinv := lockInvariant_reachable hreach
  have hglobal : ∀ t1 t2 : Nat, s.phase t1 = .inBody → s.phase t2 = .inBody → t1 = t2 := by
    intro t1 t2 h1 h2
    have g1 := hinv t1 (Or.inr (Or.inl h1))
    have g2 := hinv t2 (Or.inr (Or.inl h2))
    rw [g1] at g2
    exact Option.some.inj g2
  exact ⟨fun t1 t2 _ h1 h2 => hglobal t1 t2 h1 h2, hglobal⟩

/-! ### Decimal digit lemmas -/

theorem digitChar_toNat {k : Nat} (h : k < 10) : (digitChar k).toNat = '0'.toNat + k := by
  interval_cases k <;> decide

theorem isDigitChar_digitChar {k : Nat} (h : k < 10) : isDigitChar (digitChar k) = true := by
  interval_cases k <;> decide

theorem natDigitsAux_fuelEq (n : Nat) :
    ∀ f1 f2 acc, n < f1 → n < f2 → natDigitsAux f1 n acc = natDigitsAux f2 n acc := by
  induction n using Nat.strongRecOn with
  | _ n ih =>
    intro f1 f2 acc h1 h2
    obtain ⟨g1, rfl⟩ : ∃ g, f1 = g + 1 := ⟨f1 - 1, by omega⟩
    obtain ⟨g2, rfl⟩ : ∃ g, f2 = g + 1 := ⟨f2 - 1, by omega⟩
    simp only [natDigitsAux]
    by_cases hn : n < 10
    · simp [hn]
    · simp only [if_neg hn]
      have hd : n / 10 < n := Nat.div_lt_self (by omega) (by omega)
      exact ih (n / 10) hd g1 g2 _ (by omega) (by omega)

theorem natDigitsAux_append (fuel : Nat) :
    ∀ n acc, natDigitsAux fuel n acc = natDigitsAux fuel n [] ++ acc := by
  induction fuel with
  | zero => intro n acc; simp [natDigitsAux]
  | succ fuel ih =>
      intro n acc
      simp only [natDigitsAux]
      by_cases hn : n < 10
      · simp [hn]
      · simp only [if_neg hn]
        rw [ih (n / 10) (digitChar (n % 10) :: acc), ih (n / 10) [digitChar (n % 10)]]
        simp

theorem natDigits_unfold (n : Nat) :
    natDigits n = (if n < 10 then [] else natDigits (n / 10)) ++ [digitChar (n % 10)] := by
  unfold natDigits
  simp only [natDigitsAux]
  by_cases hn : n < 10
  · simp [hn, Nat.mod_eq_of_lt hn]
  · simp only [if_neg hn]
    rw [natDigitsAux_append]
    congr 1
    have hd : n / 10 < n := Nat.div_lt_self (by omega) (by omega)
    exact natDigitsAux_fuelEq (n / 10) n (n / 10 + 1) [] (by omega) (by omega)

theorem natDigits_ne_nil (n : Nat) : natDigits n ≠ [] := by
  rw [natDigits_unfold]
  simp

theorem natDigits_digits (n : Nat) : ∀ c ∈ natDigits n, isDigitChar c = true := by
  induction n using Nat.strongRecOn with
  | _ n ih =>
    rw [natDigits_unfold]
    intro c hc
    rw [List.mem_append] at hc
    rcases hc with hc | hc
    · by_cases hn : n < 10
      · simp [hn] at hc
      · have hd : n / 10 < n := Nat.div_lt_self (by omega) (by omega)
        exact ih (n / 10) hd c (by simpa [hn] using hc)
    · rw [List.mem_singleton] at hc
      subst hc
      exact isDigitChar_digitChar (Nat.mod_lt _ (by omega))

theorem digitsVal_natDigits (n : Nat) : digitsVal (natDigits n) = n := by
  induction n using Nat.strongRecOn with
  | _ n ih =>
    rw [natDigits_unfold]
    unfold digitsVal
    rw [List.foldl_append]
    by_cases hn : n < 10
    · simp only [if_pos hn, List.foldl_nil, List.foldl_cons]
      rw [digitChar_toNat (Nat.mod_lt _ (by omega))]
      omega
    · simp only [if_neg hn, List.foldl_cons, List.foldl_nil]
      have hd : n / 10 < n := Nat.div_lt_self (by omega) (by omega)
      have hrec := ih (n / 10) hd
      unfold digitsVal at hrec
      rw [hrec, digitChar_toNat (Nat.mod_lt _ (by omega))]
      omega

theorem natDigits_zero : natDigits 0 = ['0'] := rfl

theorem natDigits_head_pos (n : Nat) (hn : n ≠ 0) :
    ∃ c t, natDigits n = c :: t ∧ isDigitChar c = true ∧ c ≠ '0' := by
  induction n using Nat.strongRecOn with
  | _ n ih =>
    rw [natDigits_unfold]
    by_cases h10 : n < 10
    · refine ⟨digitChar (n % 10), [], by simp [h10], isDigitChar_digitChar (by omega), ?_⟩
      intro hc
      have := congrArg Char.toNat hc
      rw [digitChar_toNat (by omega)] at this
      have hz : ('0').toNat = 48 := by decide
      rw [hz] at this
      have hmod : n % 10 = n := Nat.mod_eq_of_lt h10
      omega
    · have hd : n / 10 < n := Nat.div_lt_self (by omega) (by omega)
      obtain ⟨c, t, hct, hdig, hc0⟩ := ih (n / 10) hd (by omega)
      exact ⟨c, t ++ [digitChar (n % 10)], by simp [h10, hct], hdig, hc0⟩

theorem natDigits_head_shape (n : Nat) :
    ∃ c t, natDigits n = c :: t ∧ isDigitChar c = true := by
  by_cases hn : n = 0
  · subst hn
    exact ⟨'0', [], rfl, by decide⟩
  · obtain ⟨c, t, hct, hdig, _⟩ := natDigits_head_pos n hn
    exact ⟨c, t, hct, hdig⟩

/-! ### `takeDigits` lemmas -/

theorem takeDigits_not_digit {c : Char} {t : List Char} (h : isDigitChar c = false) :
    takeDigits (c :: t) = ([], c :: t) := by
  simp [takeDigits, h]

theorem numStop_not_digit {cs : List Char} (h : numStop cs = true) :
    takeDigits cs = ([], cs) := by
  match cs with
  | [] => rfl
  | c :: t =>
      simp only [numStop, Bool.not_eq_true', Bool.or_eq_false_iff] at h
      exact takeDigits_not_digit h.1.1.1

theorem takeDigits_run : ∀ ds rest : List Char, (∀ c ∈ ds, isDigitChar c = true) →
    takeDigits rest = ([], rest) → takeDigits (ds ++ rest) = (ds, rest)
  | [], rest, _, hrest => by simpa using hrest
  | c :: t, rest, hall, hrest => by
      have h1 : isDigitChar c = true := hall c (List.mem_cons_self c t)
      have h2 := takeDigits_run t rest (fun x hx => hall x (List.mem_cons_of_mem c hx)) hrest
      simp [takeDigits, h1, h2]

/-- Witness for C9: the two-step schedule where thread 0 locks the gate and
then the "alice" lock reaches a state with thread 0 in its body; the
mutual-exclusion theorem applies there. -/
theorem withUserLock_mutual_exclusion_witness :
    lockDemoState2.phase 0 = ThreadPhase.inBody ∧ (0 : Nat) = 0 := by
  have hstep1 : LockStep (fun _ => "alice") initialLockState lockDemoState1 :=
    LockStep.lockGate initialLockState 0 rfl rfl
  have hstep2 : LockStep (fun _ => "alice") lockDemoState1 lockDemoState2 :=
    LockStep.lockUser lockDemoState1 0
      (by simp [lockDemoState1, Function.update_apply]) rfl
  have hreach : reachableLockState (fun _ => "alice") lockDemoState2 :=
    Relation.ReflTransGen.tail (Relation.ReflTransGen.single hstep1) hstep2
  have hphase : lockDemoState2.phase 0 = ThreadPhase.inBody := by
    simp [lockDemoState2, Function.update_apply]
  exact ⟨hphase,
    (withUserLock_mutual_exclusion (fun _ => "alice") lockDemoState2 hreach).1
      0 0 rfl hphase hphase⟩

/-! ### The binary64 rounding model

`natLog2` and `floorLog2Rat` locate the binade of a positive rational;
`roundFloat` rounds it to the nearest binary64 value; the exactness lemmas
show the conversion is the identity on exact float values, which drives
the codec round trip. -/

theorem log2UB_spec : ∀ (fuel n c : Nat), n < 2 ^ (c * 2 ^ fuel) →
    n < 2 ^ log2UB fuel n c
  | 0, n, c, h => by simpa [log2UB] using h
  | fuel + 1, n, c, h => by
      rw [log2UB]
      split
      · assumption
      · refine log2UB_spec fuel n (2 * c) ?_
        have hexp : 2 * c * 2 ^ fuel = c * 2 ^ (fuel + 1) := by ring
        rw [hexp]
        exact h

theorem log2UB_ge : ∀ (fuel n c : Nat), c ≤ log2UB fuel n c
  | 0, _, c => Nat.le_refl c
  | fuel + 1, n, c => by
      rw [log2UB]
      split
      · exact Nat.le_refl c
      · exact le_trans (by omega) (log2UB_ge fuel n (2 * c))

theorem log2BS_spec : ∀ (fuel n lo hi : Nat), 2 ^ lo ≤ n → n < 2 ^ hi →
    lo < hi → hi - lo ≤ 2 ^ fuel →
    2 ^ log2BS n fuel lo hi ≤ n ∧ n < 2 ^ (log2BS n fuel lo hi + 1)
  | 0, n, lo, hi, h1, h2, h3, h4 => by
      have : hi = lo + 1 := by simpa using by omega
      subst this
      exact ⟨h1, h2⟩
  | fuel + 1, n, lo, hi, h1, h2, h3, h4 => by
      rw [log2BS]
      split
      · have : hi = lo + 1 := by omega
        subst this
        exact ⟨h1, h2⟩
      · have hgap : 2 ^ (fuel + 1) = 2 ^ fuel + 2 ^ fuel := by ring
        have hmidlo : lo < (lo + hi) / 2 := by omega
        have hmidhi : (lo + hi) / 2 < hi := by omega
        split
        · exact log2BS_spec fuel n ((lo + hi) / 2) hi (by assumption) h2 hmidhi (by omega)
        · have hlt : n < 2 ^ ((lo + hi) / 2) := by omega
          exact log2BS_spec fuel n lo ((lo + hi) / 2) h1 hlt hmidlo (by omega)

theorem natLog2_spec (n : Nat) (hn : 1 ≤ n) :
    2 ^ natLog2 n ≤ n ∧ n < 2 ^ (natLog2 n + 1) := by
  unfold natLog2
  split
  · have : n = 1 := by omega
    subst this
    exact ⟨by norm_num, by norm_num⟩
  · have hn2 : 2 ≤ n := by omega
    have hub : n < 2 ^ log2UB n n 1 := by
      refine log2UB_spec n n 1 ?_
      have h1 : n < 2 ^ n := Nat.lt_two_pow n
      have h2 : (2:Nat) ^ n ≤ 2 ^ (1 * 2 ^ n) := by
        refine Nat.pow_le_pow_right (by norm_num) ?_
        have := Nat.lt_two_pow n
        omega
      omega
    have hge : 1 ≤ log2UB n n 1 := log2UB_ge n n 1
    refine log2BS_spec (log2UB n n 1) n 0 (log2UB n n 1) (by simpa using hn) hub
      (by omega) ?_
    have := Nat.lt_two_pow (log2UB n n 1)
    omega

theorem divRoundEven_le (num den : Nat) :
    num / den ≤ divRoundEven num den ∧ divRoundEven num den ≤ num / den + 1 := by
  unfold divRoundEven
  split <;> omega

theorem divRoundEven_mul (f D : Nat) (hD : 0 < D) : divRoundEven (f * D) D = f := by
  unfold divRoundEven
  rw [Nat.mul_div_cancel f hD, Nat.mul_mod_left]
  have hc : ¬(D < 2 * 0 ∨ (2 * 0 = D ∧ f % 2 = 1)) := by omega
  rw [if_neg hc]

theorem floorLog2Rat_spec (A B : Nat) (hA : 0 < A) (hB : 0 < B) :
    (2:ℚ) ^ floorLog2Rat A B ≤ (A:ℚ) / B ∧
      (A:ℚ) / B < 2 ^ (floorLog2Rat A B + 1) := by
  have hlogB := natLog2_spec B hB
  set s := natLog2 B + 2 with hs
  have hBlt : B < 2 ^ s := by
    have h1 : (2:Nat) ^ (natLog2 B + 1) ≤ 2 ^ s := Nat.pow_le_pow_right (by norm_num) (by omega)
    omega
  set Q := (A * 2 ^ s) / B with hQ
  have hQ1 : 1 ≤ Q := by
    rw [hQ, Nat.le_div_iff_mul_le hB]
    have : 2 ^ s ≤ A * 2 ^ s := Nat.le_mul_of_pos_left _ hA
    omega
  have hlogQ := natLog2_spec Q hQ1
  have hd1 : Q * B ≤ A * 2 ^ s := Nat.div_mul_le_self _ _
  have hd2 : A * 2 ^ s < (Q + 1) * B := by
    have hmod := Nat.div_add_mod (A * 2 ^ s) B
    have hlt := Nat.mod_lt (A * 2 ^ s) hB
    calc A * 2 ^ s = B * Q + (A * 2 ^ s) % B := by rw [hQ, hmod]
    _ < B * Q + B := Nat.add_lt_add_left hlt _
    _ = (Q + 1) * B := by ring
  have key1 : 2 ^ natLog2 Q * B ≤ A * 2 ^ s :=
    le_trans (Nat.mul_le_mul_right B hlogQ.1) hd1
  have key2 : A * 2 ^ s < 2 ^ (natLog2 Q + 1) * B :=
    lt_of_lt_of_le hd2 (Nat.mul_le_mul_right B hlogQ.2)
  have hBQ : (0:ℚ) < (B:ℚ) := by exact_mod_cast hB
  have hsQ : (0:ℚ) < (2:ℚ) ^ s := by positivity
  constructor
  · show (2:ℚ) ^ ((natLog2 Q : Int) - (s : Nat)) ≤ (A:ℚ) / B
    rw [zpow_sub₀ (two_ne_zero), zpow_natCast, zpow_natCast]
    rw [div_le_div_iff₀ hsQ hBQ]
    calc (2:ℚ) ^ natLog2 Q * B ≤ (A:ℚ) * 2 ^ s := by exact_mod_cast key1
    _ = (A:ℚ) * 2 ^ s := rfl
  · show (A:ℚ) / B < (2:ℚ) ^ ((natLog2 Q : Int) - (s : Nat) + 1)
    have hexp : (natLog2 Q : Int) - (s : Nat) + 1
        = ((natLog2 Q + 1 : Nat) : Int) - (s : Nat) := by
      push_cast
      ring
    rw [hexp, zpow_sub₀ (two_ne_zero), zpow_natCast, zpow_natCast]
    rw [div_lt_div_iff₀ hBQ hsQ]
    calc (A:ℚ) * 2 ^ s < (2:ℚ) ^ (natLog2 Q + 1) * B := by exact_mod_cast key2
    _ = (2:ℚ) ^ (natLog2 Q + 1) * B := rfl

theorem zpow2_between_unique {x : ℚ} {k j : ℤ} (h1 : 2 ^ k ≤ x) (h2 : x < 2 ^ (k + 1))
    (h3 : 2 ^ j ≤ x) (h4 : x < 2 ^ (j + 1)) : k = j := by
  by_contra hne
  rcases lt_or_gt_of_ne hne with h | h
  · have hle : (2:ℚ) ^ (k + 1) ≤ 2 ^ j := zpow_le_zpow_right₀ one_le_two (by omega)
    linarith
  · have hle : (2:ℚ) ^ (j + 1) ≤ 2 ^ k := zpow_le_zpow_right₀ one_le_two (by omega)
    linarith

theorem ratScale_den_pos (A B : Nat) (p : Int) (hB : 0 < B) : 0 < (ratScale A B p).2 := by
  unfold ratScale
  split <;> positivity

theorem ratScale_div (A B : Nat) (p : Int) (hB : 0 < B) :
    ((ratScale A B p).1 : ℚ) / ((ratScale A B p).2 : ℚ) = (A:ℚ) / B * 2 ^ (-p) := by
  have hBQ : ((B:ℚ)) ≠ 0 := by positivity
  unfold ratScale
  split
  · rename_i hp
    have h2 : ((2:ℚ)) ^ p.toNat = (2:ℚ) ^ p := by
      rw [← zpow_natCast, Int.toNat_of_nonneg hp]
    push_cast
    rw [h2, zpow_neg, ← div_div, div_eq_mul_inv]
  · rename_i hp
    have h2 : ((2:ℚ)) ^ (-p).toNat = (2:ℚ) ^ (-p) := by
      rw [← zpow_natCast, Int.toNat_of_nonneg (by omega)]
    push_cast
    rw [h2]
    ring

/-- Exactness: the numerator equality forced by `(A:ℚ) = f·2^p·B`. -/
theorem ratScale_exact (A B f : Nat) (p : Int)
    (hval : (A:ℚ) = (f:ℚ) * 2 ^ p * B) :
    (ratScale A B p).1 = f * (ratScale A B p).2 := by
  unfold ratScale
  split
  · rename_i hp
    have h2 : ((2:ℚ)) ^ p.toNat = (2:ℚ) ^ p := by
      rw [← zpow_natCast, Int.toNat_of_nonneg hp]
    have hcast : (A:ℚ) = ((f * (B * 2 ^ p.toNat) : Nat) : ℚ) := by
      push_cast
      rw [h2]
      rw [hval]
      ring
    exact_mod_cast hcast
  · rename_i hp
    have h2 : ((2:ℚ)) ^ (-p).toNat = (2:ℚ) ^ (-p) := by
      rw [← zpow_natCast, Int.toNat_of_nonneg (by omega)]
    have hcast : ((A * 2 ^ (-p).toNat : Nat) : ℚ) = ((f * B : Nat) : ℚ) := by
      push_cast
      rw [h2, hval]
      calc (f:ℚ) * 2 ^ p * (B:ℚ) * 2 ^ (-p) = (f:ℚ) * (B:ℚ) * (2 ^ p * 2 ^ (-p)) := by ring
      _ = (f:ℚ) * B := by
            rw [← zpow_add₀ (two_ne_zero : (2:ℚ) ≠ 0)]
            simp
    exact_mod_cast hcast

theorem roundAt_exact (A B f : Nat) (p : Int) (hB : 0 < B)
    (hval : (A:ℚ) = (f:ℚ) * 2 ^ p * B) : roundAt A B p = f := by
  unfold roundAt
  rw [ratScale_exact A B f p hval]
  exact divRoundEven_mul f _ (ratScale_den_pos A B p hB)

/-- Bounds on the scaled rounding from bounds on `A/B`. -/
theorem roundAt_bounds (A B : Nat) (p : Int) (hB : 0 < B) {c : Nat}
    (hlow : (2:ℚ) ^ ((c : Int) + p) ≤ (A:ℚ) / B)
    (hhigh : (A:ℚ) / B < 2 ^ ((c : Int) + 1 + p)) :
    2 ^ c ≤ roundAt A B p ∧ roundAt A B p ≤ 2 ^ (c + 1) := by
  have hD := ratScale_den_pos A B p hB
  have hDQ : (0:ℚ) < ((ratScale A B p).2 : ℚ) := by exact_mod_cast hD
  have hdiv := ratScale_div A B p hB
  have hp2 : (0:ℚ) < (2:ℚ) ^ (-p) := by positivity
  have hlow2 : (2:ℚ) ^ (c : Int) ≤ ((ratScale A B p).1 : ℚ) / ((ratScale A B p).2 : ℚ) := by
    rw [hdiv]
    calc (2:ℚ) ^ (c : Int) = 2 ^ ((c : Int) + p) * 2 ^ (-p) := by
          rw [← zpow_add₀ (two_ne_zero)]
          ring_nf
    _ ≤ (A:ℚ) / B * 2 ^ (-p) := mul_le_mul_of_nonneg_right hlow (le_of_lt hp2)
  have hhigh2 : ((ratScale A B p).1 : ℚ) / ((ratScale A B p).2 : ℚ) < 2 ^ ((c : Int) + 1) := by
    rw [hdiv]
    calc (A:ℚ) / B * 2 ^ (-p) < 2 ^ ((c : Int) + 1 + p) * 2 ^ (-p) :=
          mul_lt_mul_of_pos_right hhigh hp2
    _ = 2 ^ ((c : Int) + 1) := by
          rw [← zpow_add₀ (two_ne_zero)]
          ring_nf
  rw [zpow_natCast] at hlow2
  have hc1 : ((c : Int) + 1) = ((c + 1 : Nat) : Int) := by push_cast; ring
  rw [hc1, zpow_natCast] at hhigh2
  have hlowN : 2 ^ c * (ratScale A B p).2 ≤ (ratScale A B p).1 := by
    have h3 := (le_div_iff₀ hDQ).mp hlow2
    have hq : ((2 ^ c * (ratScale A B p).2 : Nat) : ℚ) ≤ ((ratScale A B p).1 : ℚ) := by
      push_cast
      exact h3
    exact_mod_cast hq
  have hhighN : (ratScale A B p).1 < 2 ^ (c + 1) * (ratScale A B p).2 := by
    have h3 := (div_lt_iff₀ hDQ).mp hhigh2
    have hq : (((ratScale A B p).1 : Nat) : ℚ) < ((2 ^ (c + 1) * (ratScale A B p).2 : Nat) : ℚ) := by
      push_cast
      linarith
    exact_mod_cast hq
  have hq1 : 2 ^ c ≤ (ratScale A B p).1 / (ratScale A B p).2 := by
    rw [Nat.le_div_iff_mul_le hD]
    omega
  have hq2 : (ratScale A B p).1 / (ratScale A B p).2 < 2 ^ (c + 1) := by
    rw [Nat.div_lt_iff_lt_mul hD]
    omega
  have hre := divRoundEven_le (ratScale A B p).1 (ratScale A B p).2
  unfold roundAt
  omega

theorem roundAt_le (A B : Nat) (p : Int) (hB : 0 < B) {c : Nat}
    (hhigh : (A:ℚ) / B < 2 ^ ((c : Int) + p)) : roundAt A B p ≤ 2 ^ c := by
  have hD := ratScale_den_pos A B p hB
  have hDQ : (0:ℚ) < ((ratScale A B p).2 : ℚ) := by exact_mod_cast hD
  have hdiv := ratScale_div A B p hB
  have hp2 : (0:ℚ) < (2:ℚ) ^ (-p) := by positivity
  have hhigh2 : ((ratScale A B p).1 : ℚ) / ((ratScale A B p).2 : ℚ) < 2 ^ (c : Int) := by
    rw [hdiv]
    calc (A:ℚ) / B * 2 ^ (-p) < 2 ^ ((c : Int) + p) * 2 ^ (-p) :=
          mul_lt_mul_of_pos_right hhigh hp2
    _ = 2 ^ (c : Int) := by
          rw [← zpow_add₀ (two_ne_zero)]
          ring_nf
  rw [zpow_natCast] at hhigh2
  have hhighN : (ratScale A B p).1 < 2 ^ c * (ratScale A B p).2 := by
    have h3 := (div_lt_iff₀ hDQ).mp hhigh2
    have hq : (((ratScale A B p).1 : Nat) : ℚ) < ((2 ^ c * (ratScale A B p).2 : Nat) : ℚ) := by
      push_cast
      linarith
    exact_mod_cast hq
  have hq2 : (ratScale A B p).1 / (ratScale A B p).2 < 2 ^ c := by
    rw [Nat.div_lt_iff_lt_mul hD]
    omega
  have hre := divRoundEven_le (ratScale A B p).1 (ratScale A B p).2
  unfold roundAt
  omega

/-- The rational bounds forced by `(A:ℚ) = f·2^p·B` with `2^c ≤ f < 2^(c+1)`. -/
theorem val_bounds (A B f : Nat) (p : Int) (hB : 0 < B) (c : Nat)
    (hf1 : 2 ^ c ≤ f) (hf2 : f < 2 ^ (c + 1))
    (hval : (A:ℚ) = (f:ℚ) * 2 ^ p * B) :
    (2:ℚ) ^ ((c : Int) + p) ≤ (A:ℚ) / B ∧ (A:ℚ) / B < 2 ^ ((c : Int) + 1 + p) := by
  have hBQ : (0:ℚ) < (B:ℚ) := by exact_mod_cast hB
  have hdiv : (A:ℚ) / B = (f:ℚ) * 2 ^ p := by
    rw [hval]
    field_simp
  have hp2 : (0:ℚ) < (2:ℚ) ^ p := by positivity
  have hfQ1 : ((2:ℚ)) ^ c ≤ (f:ℚ) := by exact_mod_cast hf1
  have hfQ2 : (f:ℚ) < (2:ℚ) ^ (c + 1) := by exact_mod_cast hf2
  constructor
  · rw [hdiv, zpow_add₀ (two_ne_zero), zpow_natCast]
    exact mul_le_mul_of_nonneg_right hfQ1 (le_of_lt hp2)
  · rw [hdiv]
    have hexp : ((c : Int) + 1 + p) = ((c + 1 : Nat) : Int) + p := by push_cast; ring
    rw [hexp, zpow_add₀ (two_ne_zero), zpow_natCast]
    exact mul_lt_mul_of_pos_right hfQ2 hp2

/-- `roundFloat` recovers a normal float from any fraction giving its exact
value. -/
theorem roundFloat_exact (A B f : Nat) (p : Int) (hB : 0 < B)
    (hf1 : 2 ^ 52 ≤ f) (hf2 : f < 2 ^ 53) (hp1 : -1074 ≤ p) (hp2 : p ≤ 971)
    (hval : (A:ℚ) = (f:ℚ) * 2 ^ p * B) :
    roundFloat A B = some (f, p) := by
  have hA : 0 < A := by
    by_contra hA0
    have hz : A = 0 := by omega
    subst hz
    have hBQ : (0:ℚ) < (B:ℚ) := by exact_mod_cast hB
    have hfQ : (0:ℚ) < (f:ℚ) := by
      have hfn : 0 < f := by
        have := Nat.pos_pow_of_pos 52 (show 0 < 2 by norm_num)
        omega
      exact_mod_cast hfn
    have hp2Q : (0:ℚ) < (2:ℚ) ^ p := by positivity
    have hpos : (0:ℚ) < (f:ℚ) * 2 ^ p * B := by positivity
    rw [← hval] at hpos
    simp at hpos
  have hb := val_bounds A B f p hB 52 hf1 (by norm_num at hf2 ⊢; omega) hval
  have hspec := floorLog2Rat_spec A B hA hB
  have hflr : floorLog2Rat A B = 52 + p := by
    refine zpow2_between_unique hspec.1 hspec.2 hb.1 ?_
    rw [show ((52:Int) + p + 1) = ((52:Nat) : Int) + 1 + p from by push_cast; ring]
    exact hb.2
  unfold roundFloat
  rw [hflr]
  have hps : (52 : Int) + p - 52 = p := by ring
  rw [hps]
  rw [if_neg (by omega)]
  rw [roundAt_exact A B f p hB hval]
  rw [if_neg (by omega)]
  rw [if_neg (by omega)]

/-- `roundFloat` recovers a subnormal float from any fraction giving its
exact value. -/
theorem roundFloat_exact_sub (A B f : Nat) (hB : 0 < B)
    (hf1 : 0 < f) (hf2 : f < 2 ^ 52)
    (hval : (A:ℚ) = (f:ℚ) * 2 ^ (-1074 : Int) * B) :
    roundFloat A B = some (f, -1074) := by
  have hA : 0 < A := by
    by_contra hA0
    have hz : A = 0 := by omega
    subst hz
    have hBQ : (0:ℚ) < (B:ℚ) := by exact_mod_cast hB
    have hfQ : (0:ℚ) < (f:ℚ) := by exact_mod_cast hf1
    have hp2Q : (0:ℚ) < (2:ℚ) ^ (-1074 : Int) := by positivity
    have hpos : (0:ℚ) < (f:ℚ) * 2 ^ (-1074 : Int) * B := by positivity
    rw [← hval] at hpos
    simp at hpos
  have hjs := natLog2_spec f hf1
  set j := natLog2 f with hj
  have hjle : j ≤ 51 := by
    by_contra hj52
    have h52 : (2:Nat) ^ 52 ≤ 2 ^ j := Nat.pow_le_pow_right (by norm_num) (by omega)
    omega
  have hb := val_bounds A B f (-1074) hB j hjs.1 hjs.2 hval
  have hspec := floorLog2Rat_spec A B hA hB
  have hflr : floorLog2Rat A B = (j : Int) - 1074 := by
    refine zpow2_between_unique hspec.1 hspec.2 ?_ ?_
    · rw [show ((j : Int) - 1074) = ((j : Int) + (-1074)) from by ring]
      exact hb.1
    · rw [show ((j : Int) - 1074 + 1) = ((j : Int) + 1 + (-1074)) from by ring]
      exact hb.2
  unfold roundFloat
  rw [hflr]
  rw [if_pos (by omega)]
  rw [roundAt_exact A B f (-1074) hB hval]

/-- Everything `roundFloat` returns is canonical, or a zero mantissa from
underflow. -/
theorem roundFloat_sound (A B : Nat) (hA : 0 < A) (hB : 0 < B) {f : Nat} {p : Int}
    (h : roundFloat A B = some (f, p)) : f = 0 ∨ canonicalFP f p := by
  have hspec := floorLog2Rat_spec A B hA hB
  set k := floorLog2Rat A B with hk
  unfold roundFloat at h
  rw [← hk] at h
  by_cases hsub : k - 52 < -1074
  · rw [if_pos hsub] at h
    simp only [Option.some.injEq, Prod.mk.injEq] at h
    obtain ⟨rfl, rfl⟩ := h
    have hle : roundAt A B (-1074) ≤ 2 ^ 52 := by
      refine roundAt_le A B (-1074) hB (c := 52) ?_
      calc (A:ℚ) / B < 2 ^ (k + 1) := hspec.2
      _ ≤ 2 ^ ((52 : Int) + (-1074)) := zpow_le_zpow_right₀ one_le_two (by omega)
      _ = 2 ^ (((52 : Nat) : Int) + (-1074)) := by norm_num
    rcases Nat.eq_zero_or_pos (roundAt A B (-1074)) with h0 | hpos
    · exact Or.inl h0
    · refine Or.inr ?_
      rcases Nat.lt_or_ge (roundAt A B (-1074)) (2 ^ 52) with hlt | hge
      · exact Or.inr (Or.inr ⟨hpos, hlt, rfl⟩)
      · exact Or.inr (Or.inl ⟨hge, by omega, by omega, by omega⟩)
  · rw [if_neg hsub] at h
    have hbnd : 2 ^ 52 ≤ roundAt A B (k - 52) ∧ roundAt A B (k - 52) ≤ 2 ^ 53 := by
      have hrb := roundAt_bounds A B (k - 52) hB (c := 52) ?_ ?_
      · convert hrb using 3
      · rw [show (((52 : Nat) : Int) + (k - 52)) = k from by push_cast; ring]
        exact hspec.1
      · rw [show (((52 : Nat) : Int) + 1 + (k - 52)) = k + 1 from by push_cast; ring]
        exact hspec.2
    by_cases hcarry : roundAt A B (k - 52) = 2 ^ 53
    · rw [if_pos hcarry] at h
      split at h
      · exact Option.noConfusion h
      · simp only [Option.some.injEq, Prod.mk.injEq] at h
        obtain ⟨rfl, rfl⟩ := h
        exact Or.inr (Or.inr (Or.inl ⟨le_refl _, by norm_num, by omega, by omega⟩))
    · rw [if_neg hcarry] at h
      split at h
      · exact Option.noConfusion h
      · simp only [Option.some.injEq, Prod.mk.injEq] at h
        obtain ⟨rfl, rfl⟩ := h
        exact Or.inr (Or.inr (Or.inl ⟨hbnd.1, by omega, by omega, by omega⟩))

/-! ### The exact decimal of a float -/

theorem stripZeros_clears : ∀ (fuel m : Nat) (e : Int), m ≠ 0 → m ≤ fuel →
    (stripZeros fuel m e).1 ≠ 0 ∧ (stripZeros fuel m e).1 % 10 ≠ 0
  | 0, m, e, hm, hle => absurd hle (by omega)
  | fuel + 1, m, e, hm, hle => by
      by_cases hmod : m % 10 = 0
      · have h10 : 10 ≤ m := by
          rcases Nat.lt_or_ge m 10 with h | h
          · interval_cases m <;> simp_all
          · exact h
        have hrec := stripZeros_clears fuel (m / 10) (e + 1) (by omega) (by omega)
        simpa [stripZeros, hm, hmod] using hrec
      · constructor <;> simp [stripZeros, hmod, hm]

theorem stripZeros_val : ∀ (fuel m : Nat) (e : Int),
    (((stripZeros fuel m e).1 : ℚ)) * 10 ^ (stripZeros fuel m e).2 = (m : ℚ) * 10 ^ e
  | 0, m, e => rfl
  | fuel + 1, m, e => by
      rw [stripZeros]
      split
      · rename_i hm
        rw [stripZeros_val fuel (m / 10) (e + 1)]
        have hdvd : 10 ∣ m := Nat.dvd_of_mod_eq_zero hm.2
        have hq : ((m / 10 : Nat) : ℚ) * 10 = (m : ℚ) := by
          have := Nat.div_mul_cancel hdvd
          exact_mod_cast this
        rw [zpow_add_one₀ (by norm_num : (10:ℚ) ≠ 0)]
        calc ((m / 10 : Nat) : ℚ) * (10 ^ e * 10) = (((m / 10 : Nat) : ℚ) * 10) * 10 ^ e := by
              ring
        _ = (m : ℚ) * 10 ^ e := by rw [hq]
      · rfl

theorem float2dec_val (f : Nat) (p : Int) :
    (((float2dec f p).1 : ℚ)) * 10 ^ (float2dec f p).2 = (f : ℚ) * 2 ^ p := by
  unfold float2dec
  split
  · rename_i hf
    subst hf
    simp
  split
  · rename_i hf hp
    rw [stripZeros_val]
    have h2 : ((2:ℚ)) ^ p.toNat = (2:ℚ) ^ p := by
      rw [← zpow_natCast, Int.toNat_of_nonneg hp]
    push_cast
    rw [h2]
    simp
  · rename_i hf hp
    rw [stripZeros_val]
    push_cast
    have h5 : ((5:ℚ)) ^ (-p).toNat = (5:ℚ) ^ (-p) := by
      rw [← zpow_natCast, Int.toNat_of_nonneg (by omega)]
    rw [h5]
    have hsplit : (10:ℚ) ^ p = 2 ^ p * 5 ^ p := by
      rw [← mul_zpow]
      norm_num
    rw [hsplit]
    calc (f:ℚ) * 5 ^ (-p) * (2 ^ p * 5 ^ p) = (f:ℚ) * 2 ^ p * (5 ^ (-p) * 5 ^ p) := by ring
    _ = (f:ℚ) * 2 ^ p := by
          rw [← zpow_add₀ (by norm_num : (5:ℚ) ≠ 0)]
          simp

theorem float2dec_fst_ne (f : Nat) (p : Int) (hf : f ≠ 0) : (float2dec f p).1 ≠ 0 := by
  unfold float2dec
  rw [if_neg hf]
  split
  · exact (stripZeros_clears _ _ _ (by positivity) (le_refl _)).1
  · exact (stripZeros_clears _ _ _ (by positivity) (le_refl _)).1

theorem float2dec_zero (p : Int) : float2dec 0 p = (0, 0) := by
  unfold float2dec
  rw [if_pos rfl]

/-- Everything `decToFloatDec` stores is the exact decimal of a canonical
float. -/
theorem decToFloatDec_sound (m : Nat) (e : Int) {m2 : Nat} {e2 : Int}
    (h : decToFloatDec m e = some (m2, e2)) :
    ∃ f p, canonicalFP f p ∧ float2dec f p = (m2, e2) := by
  unfold decToFloatDec at h
  split at h
  · simp only [Option.some.injEq, Prod.mk.injEq] at h
    refine ⟨0, 0, Or.inl ⟨rfl, rfl⟩, ?_⟩
    rw [float2dec_zero, h.1, h.2]
  · rename_i hm
    split at h
    · exact Option.noConfusion h
    · rename_i fp hfp
      simp only [Option.some.injEq] at h
      have hA : 0 < (if 0 ≤ e then m * 10 ^ e.toNat else m) := by
        split <;> positivity
      have hB : 0 < (if 0 ≤ e then 1 else 10 ^ (-e).toNat) := by
        split <;> positivity
      obtain ⟨f, p⟩ := fp
      rcases roundFloat_sound _ _ hA hB hfp with h0 | hc
      · subst h0
        refine ⟨0, 0, Or.inl ⟨rfl, rfl⟩, ?_⟩
        rw [float2dec_zero] at h ⊢
        rw [h]
      · exact ⟨f, p, hc, h⟩

/-- Reading back the exact decimal of a canonical float returns it: the
parse of the model's canonical number rendering is the identity. -/
theorem decToFloatDec_rt (f : Nat) (p : Int) (hc : canonicalFP f p) :
    decToFloatDec (float2dec f p).1 (float2dec f p).2
      = some ((float2dec f p).1, (float2dec f p).2) := by
  rcases Nat.eq_zero_or_pos f with hf0 | hfpos
  · subst hf0
    rw [float2dec_zero]
    unfold decToFloatDec
    rw [if_pos rfl]
  have hm := float2dec_fst_ne f p (by omega)
  set m := (float2dec f p).1 with hmdef
  set e := (float2dec f p).2 with hedef
  have hval : (m : ℚ) * 10 ^ e = (f : ℚ) * 2 ^ p := float2dec_val f p
  unfold decToFloatDec
  rw [if_neg hm]
  have hB2 : 0 < (if 0 ≤ e then 1 else 10 ^ (-e).toNat) := by
    split <;> positivity
  have hAval : ((if 0 ≤ e then m * 10 ^ e.toNat else m : Nat) : ℚ)
      = (f : ℚ) * 2 ^ p * ((if 0 ≤ e then 1 else 10 ^ (-e).toNat : Nat) : ℚ) := by
    split
    · rename_i he
      have h10 : ((10:ℚ)) ^ e.toNat = (10:ℚ) ^ e := by
        rw [← zpow_natCast, Int.toNat_of_nonneg he]
      push_cast
      rw [h10, hval]
      simp
    · rename_i he
      have h10 : ((10:ℚ)) ^ (-e).toNat = (10:ℚ) ^ (-e) := by
        rw [← zpow_natCast, Int.toNat_of_nonneg (by omega)]
      push_cast
      rw [h10, ← hval]
      calc (m:ℚ) = (m:ℚ) * (10 ^ e * 10 ^ (-e)) := by
            rw [← zpow_add₀ (by norm_num : (10:ℚ) ≠ 0)]
            simp
      _ = (m:ℚ) * 10 ^ e * 10 ^ (-e) := by ring
  rcases hc with ⟨hf0, _⟩ | ⟨hf1, hf2, hp1, hp2⟩ | ⟨hf1, hf2, hp⟩
  · omega
  · rw [roundFloat_exact _ _ f p hB2 hf1 hf2 hp1 hp2 hAval]
  · subst hp
    rw [roundFloat_exact_sub _ _ f hB2 hfpos hf2 hAval]

/-- The identity on the stored decimal form. -/
theorem decToFloatDec_id (n : JsonNumber) (hn : isFloatDecimal n) :
    decToFloatDec n.mantissa n.exponent10 = some (n.mantissa, n.exponent10) := by
  obtain ⟨f, p, hc, heq⟩ := hn
  have hrt := decToFloatDec_rt f p hc
  rw [heq] at hrt
  simpa using hrt

/-! ### Number parsing round trip -/

theorem parseFrac_not_dot {c : Char} {t : List Char} (h : ¬c = '.') :
    parseFrac (c :: t) = some ([], c :: t) := by
  simp [parseFrac, h]

theorem parseFrac_stop {cs : List Char} (h : numStop cs = true) :
    parseFrac cs = some ([], cs) := by
  match cs with
  | [] => rfl
  | c :: t =>
      simp only [numStop, Bool.not_eq_true', Bool.or_eq_false_iff, beq_eq_false_iff_ne] at h
      exact parseFrac_not_dot h.1.1.2

theorem parseExp_stop {cs : List Char} (h : numStop cs = true) :
    parseExp cs = some (0, cs) := by
  match cs with
  | [] => rfl
  | c :: t =>
      simp only [numStop, Bool.not_eq_true', Bool.or_eq_false_iff, beq_eq_false_iff_ne] at h
      have he : ¬(c = 'e' ∨ c = 'E') := by
        rintro (rfl | rfl)
        · exact h.1.2 rfl
        · exact h.2 rfl
      simp [parseExp, he]

theorem digit_not_minus {c : Char} (h : isDigitChar c = true) : ¬c = '-' := by
  rintro rfl
  exact absurd h (by decide)

theorem digit_not_plus {c : Char} (h : isDigitChar c = true) : ¬c = '+' := by
  rintro rfl
  exact absurd h (by decide)

theorem digit_not_zero_char {c : Char} (h : ¬c = '0') : (c == '0') = false := by
  simpa using h

/-- `parseExpTail` inverts `intChars`. -/
theorem parseExpTail_intChars (e : Int) (rest : List Char) (hr : numStop rest = true) :
    parseExpTail (intChars e ++ rest) = some (e, rest) := by
  obtain ⟨c, t, hct, hdig⟩ := natDigits_head_shape e.natAbs
  have hdigits : takeDigits (c :: (t ++ rest)) = (c :: t, rest) := by
    have := takeDigits_run (natDigits e.natAbs) rest (natDigits_digits _)
      (numStop_not_digit hr)
    rw [hct] at this
    simpa using this
  have hdv : digitsVal (c :: t) = e.natAbs := by
    rw [← hct]
    exact digitsVal_natDigits _
  by_cases he : e < 0
  · have harg : intChars e ++ rest = '-' :: (c :: (t ++ rest)) := by
      simp [intChars, he, hct]
    rw [harg]
    simp only [parseExpTail]
    have habs : |e| = -e := abs_of_neg he
    simp [hdigits, hdv, habs]
  · have harg : intChars e ++ rest = c :: (t ++ rest) := by
      simp [intChars, he, hct]
    rw [harg]
    simp only [parseExpTail]
    have habs : |e| = e := abs_of_nonneg (by omega)
    simp [digit_not_plus hdig, digit_not_minus hdig, hdigits, hdv, habs]

theorem parseExp_e (r : List Char) : parseExp ('e' :: r) = parseExpTail r := by
  simp [parseExp]

/-- The digits-and-exponent codec round trip after the sign. -/
theorem parseNumberCore_render (neg : Bool) (m : Nat) (e : Int)
    (hn : isFloatDecimal ⟨neg, m, e⟩) (rest : List Char) (hr : numStop rest = true) :
    parseNumberCore neg (natDigits m ++ (expChars e ++ rest)) = some (⟨neg, m, e⟩, rest) := by
  obtain ⟨c0, t0, hm0, hdig0⟩ := natDigits_head_shape m
  have hzchk : (c0 == '0' && !t0.isEmpty) = false := by
    by_cases hm : m = 0
    · subst hm
      rw [natDigits_zero] at hm0
      cases hm0
      simp
    · obtain ⟨c, t, hct, _, hc0⟩ := natDigits_head_pos m hm
      rw [hm0] at hct
      cases hct
      simp [digit_not_zero_char hc0]
  have hdv : digitsVal (c0 :: t0) = m := by
    rw [← hm0]
    exact digitsVal_natDigits m
  have hid := decToFloatDec_id ⟨neg, m, e⟩ hn
  by_cases he : e = 0
  · subst he
    have harg : natDigits m ++ (expChars 0 ++ rest) = c0 :: (t0 ++ rest) := by
      simp [expChars, hm0]
    have hdigits : takeDigits (c0 :: (t0 ++ rest)) = (c0 :: t0, rest) := by
      have := takeDigits_run (natDigits m) rest (natDigits_digits m)
        (numStop_not_digit hr)
      rw [hm0] at this
      simpa using this
    rw [harg]
    simp only [parseNumberCore]
    simp only at hid
    simp [hdigits, hzchk, parseFrac_stop hr, parseExp_stop hr, hdv, hid]
  · have hexp : expChars e = 'e' :: intChars e := by
      simp only [expChars, beq_iff_eq, if_neg he]
    have harg : natDigits m ++ (expChars e ++ rest)
        = c0 :: (t0 ++ ('e' :: (intChars e ++ rest))) := by
      simp [hexp, hm0]
    have hdigits : takeDigits (c0 :: (t0 ++ ('e' :: (intChars e ++ rest))))
        = (c0 :: t0, 'e' :: (intChars e ++ rest)) := by
      have := takeDigits_run (natDigits m) ('e' :: (intChars e ++ rest)) (natDigits_digits m)
        (takeDigits_not_digit (by decide))
      rw [hm0] at this
      simpa using this
    rw [harg]
    simp only [parseNumberCore]
    simp only at hid
    simp [hdigits, hzchk, parseFrac_not_dot (by decide : ¬('e' = '.')), parseExp_e,
      parseExpTail_intChars e rest hr, hdv, hid]

/-- The number codec round trip: `parseNumber` inverts `renderNumber` on
normalized numbers whenever the remainder cannot extend the number. -/
theorem parseNumber_render (n : JsonNumber) (hn : isFloatDecimal n)
    (rest : List Char) (hr : numStop rest = true) :
    parseNumber (renderNumber n ++ rest) = some (n, rest) := by
  obtain ⟨neg, m, e⟩ := n
  cases neg with
  | true =>
      have harg : renderNumber ⟨true, m, e⟩ ++ rest
          = '-' :: (natDigits m ++ (expChars e ++ rest)) := by
        simp [renderNumber]
      rw [harg]
      simp only [parseNumber, reduceIte]
      exact parseNumberCore_render true m e hn rest hr
  | false =>
      obtain ⟨c0, t0, hm0, hdig0⟩ := natDigits_head_shape m
      have harg : renderNumber ⟨false, m, e⟩ ++ rest
          = c0 :: (t0 ++ (expChars e ++ rest)) := by
        simp [renderNumber, hm0]
      rw [harg]
      simp only [parseNumber, digit_not_minus hdig0, if_false]
      have hcore := parseNumberCore_render false m e hn rest hr
      rw [hm0] at hcore
      simpa using hcore

/-! ### String escaping round trip -/

theorem psbStep_le {acc : List Char} {c : Char} {rest : List Char}
    {y : List Char × List Char} (h : psbStep acc c rest = some (.inr y)) :
    y.2.length ≤ rest.length := by
  simp only [psbStep] at h
  repeat' split at h
  all_goals first
    | exact Option.noConfusion h
    | (simp only [Option.some.injEq, Sum.inr.injEq] at h
       subst h
       simp only [List.length_cons]
       omega)
    | simp at h

theorem parseStringBodyF_irrel : ∀ (f1 f2 : Nat) (acc cs : List Char),
    cs.length < f1 → cs.length < f2 →
    parseStringBodyF f1 acc cs = parseStringBodyF f2 acc cs
  | 0, _, _, _, h1, _ => by omega
  | _ + 1, 0, _, _, _, h2 => by omega
  | f1 + 1, f2 + 1, acc, [], _, _ => rfl
  | f1 + 1, f2 + 1, acc, c :: rest, h1, h2 => by
      rw [parseStringBodyF, parseStringBodyF]
      cases h : psbStep acc c rest with
      | none => rfl
      | some out =>
          cases out with
          | inl done => rfl
          | inr y =>
              have := psbStep_le h
              simp only [List.length_cons] at h1 h2
              exact parseStringBodyF_irrel f1 f2 y.1 y.2 (by omega) (by omega)

/-- One unfolding of the scanner through its step function. -/
theorem parseStringBody_step (acc : List Char) (c : Char) (rest : List Char) :
    parseStringBody acc (c :: rest)
      = match psbStep acc c rest with
        | some (.inl out) => some out
        | some (.inr y) => parseStringBody y.1 y.2
        | none => none := by
  show parseStringBodyF ((c :: rest).length + 1) acc (c :: rest) = _
  rw [show (c :: rest).length + 1 = rest.length + 1 + 1 from by simp]
  rw [parseStringBodyF]
  cases h : psbStep acc c rest with
  | none => rfl
  | some out =>
      cases out with
      | inl done => rfl
      | inr y =>
          have := psbStep_le h
          exact parseStringBodyF_irrel _ _ y.1 y.2 (by omega) (by omega)

theorem parseStringBody_quote (acc rest : List Char) :
    parseStringBody acc ('"' :: rest) = some (String.mk acc.reverse, rest) := by
  rw [parseStringBody_step]
  rfl

theorem hexVal_hexDigitChar {k : Nat} (h : k < 16) : hexVal (hexDigitChar k) = some k := by
  interval_cases k <;> decide

/-- A non-surrogate `\u` escape decodes to its code point. -/
theorem parseStringBody_u (a b c d : Char) (acc rest : List Char) (va vb vc vd : Nat)
    (ha : hexVal a = some va) (hb : hexVal b = some vb) (hc : hexVal c = some vc)
    (hd : hexVal d = some vd)
    (hns : ¬(0xD800 ≤ ((va * 16 + vb) * 16 + vc) * 16 + vd ∧
      ((va * 16 + vb) * 16 + vc) * 16 + vd < 0xE000)) :
    parseStringBody acc ('\\' :: 'u' :: a :: b :: c :: d :: rest)
      = parseStringBody (Char.ofNat (((va * 16 + vb) * 16 + vc) * 16 + vd) :: acc) rest := by
  rw [parseStringBody_step]
  simp [psbStep, ha, hb, hc, hd, hns]

theorem parseStringBody_escape (c : Char) (acc rest : List Char) :
    parseStringBody acc (escapeChar c ++ rest) = parseStringBody (c :: acc) rest := by
  by_cases h1 : c = '"'
  · subst h1
    show parseStringBody acc ('\\' :: '"' :: rest) = _
    rw [parseStringBody_step]
    simp [psbStep, unescapeShort]
  by_cases h2 : c = '\\'
  · subst h2
    show parseStringBody acc ('\\' :: '\\' :: rest) = _
    rw [parseStringBody_step]
    simp [psbStep, unescapeShort]
  by_cases h3 : c = '\n'
  · subst h3
    show parseStringBody acc ('\\' :: 'n' :: rest) = _
    rw [parseStringBody_step]
    simp [psbStep, unescapeShort]
  by_cases h4 : c = '\r'
  · subst h4
    show parseStringBody acc ('\\' :: 'r' :: rest) = _
    rw [parseStringBody_step]
    simp [psbStep, unescapeShort]
  by_cases h5 : c = '\t'
  · subst h5
    show parseStringBody acc ('\\' :: 't' :: rest) = _
    rw [parseStringBody_step]
    simp [psbStep, unescapeShort]
  by_cases h6 : c.toNat < 0x20
  · have harg : escapeChar c ++ rest
        = '\\' :: 'u' :: '0' :: '0' ::
            hexDigitChar (c.toNat / 16) :: hexDigitChar (c.toNat % 16) :: rest := by
      simp [escapeChar, h1, h2, h3, h4, h5, h6]
    rw [harg, parseStringBody_u '0' '0' (hexDigitChar (c.toNat / 16))
      (hexDigitChar (c.toNat % 16)) acc rest 0 0 (c.toNat / 16) (c.toNat % 16)
      (by decide) (by decide) (hexVal_hexDigitChar (by omega))
      (hexVal_hexDigitChar (Nat.mod_lt _ (by omega))) (by omega)]
    rw [show ((0 * 16 + 0) * 16 + c.toNat / 16) * 16 + c.toNat % 16 = c.toNat from by omega]
    rw [Char.ofNat_toNat]
  by_cases h7 : c = '<'
  · subst h7
    have harg : escapeChar '<' ++ rest = '\\' :: 'u' :: '0' :: '0' :: '3' :: 'c' :: rest := by
      simp [escapeChar]
    rw [harg, parseStringBody_u '0' '0' '3' 'c' acc rest 0 0 3 12
      (by decide) (by decide) (by decide) (by decide) (by omega)]
  by_cases h8 : c = '>'
  · subst h8
    have harg : escapeChar '>' ++ rest = '\\' :: 'u' :: '0' :: '0' :: '3' :: 'e' :: rest := by
      simp [escapeChar]
    rw [harg, parseStringBody_u '0' '0' '3' 'e' acc rest 0 0 3 14
      (by decide) (by decide) (by decide) (by decide) (by omega)]
  by_cases h9 : c = '&'
  · subst h9
    have harg : escapeChar '&' ++ rest = '\\' :: 'u' :: '0' :: '0' :: '2' :: '6' :: rest := by
      simp [escapeChar]
    rw [harg, parseStringBody_u '0' '0' '2' '6' acc rest 0 0 2 6
      (by decide) (by decide) (by decide) (by decide) (by omega)]
  by_cases h10 : c.toNat = 0x2028
  · have hc : c = Char.ofNat 0x2028 := by
      rw [← h10, Char.ofNat_toNat]
    subst hc
    have harg : escapeChar (Char.ofNat 0x2028) ++ rest
        = '\\' :: 'u' :: '2' :: '0' :: '2' :: '8' :: rest := by
      simp [escapeChar]
    rw [harg, parseStringBody_u '2' '0' '2' '8' acc rest 2 0 2 8
      (by decide) (by decide) (by decide) (by decide) (by omega)]
  by_cases h11 : c.toNat = 0x2029
  · have hc : c = Char.ofNat 0x2029 := by
      rw [← h11, Char.ofNat_toNat]
    subst hc
    have harg : escapeChar (Char.ofNat 0x2029) ++ rest
        = '\\' :: 'u' :: '2' :: '0' :: '2' :: '9' :: rest := by
      simp [escapeChar]
    rw [harg, parseStringBody_u '2' '0' '2' '9' acc rest 2 0 2 9
      (by decide) (by decide) (by decide) (by decide) (by omega)]
  · have harg : escapeChar c ++ rest = c :: rest := by
      simp [escapeChar, h1, h2, h3, h4, h5, h6, h7, h8, h9, h10, h11]
    rw [harg, parseStringBody_step]
    simp [psbStep, h1, h2, h6]

theorem parseStringBody_flatMap (cs : List Char) : ∀ (acc rest : List Char),
    parseStringBody acc (cs.flatMap escapeChar ++ '"' :: rest)
      = some (String.mk (acc.reverse ++ cs), rest) := by
  induction cs with
  | nil =>
      intro acc rest
      simp only [List.flatMap_nil, List.nil_append]
      rw [parseStringBody_quote]
      simp
  | cons c cs ih =>
      intro acc rest
      rw [List.flatMap_cons, List.append_assoc, parseStringBody_escape, ih]
      simp

/-- The string codec round trip. -/
theorem parseStringBody_render (s : String) (rest : List Char) :
    parseStringBody [] (s.data.flatMap escapeChar ++ '"' :: rest) = some (s, rest) := by
  rw [parseStringBody_flatMap]
  simp

/-! ### The key order and sorted member lists -/

theorem char_toNat_inj {a b : Char} (h : a.toNat = b.toNat) : a = b := by
  rw [← Char.ofNat_toNat a, ← Char.ofNat_toNat b, h]

theorem charListLt_irrefl : ∀ as, charListLt as as = false
  | [] => rfl
  | a :: as => by simp [charListLt, charListLt_irrefl as]

theorem charListLt_asymm : ∀ as bs, charListLt as bs = true → charListLt bs as = false
  | [], [] => by simp [charListLt]
  | [], _ :: _ => by simp [charListLt]
  | _ :: _, [] => by simp [charListLt]
  | a :: as, b :: bs => by
      intro h
      simp only [charListLt] at h ⊢
      by_cases h1 : a.toNat < b.toNat
      · have h2 : ¬b.toNat < a.toNat := by omega
        simp [h1, h2]
      · by_cases h2 : b.toNat < a.toNat
        · simp [h1, h2] at h
        · simp only [h1, h2, if_false] at h
          simp only [h1, h2, if_false]
          exact charListLt_asymm as bs h

theorem charListLt_trans : ∀ as bs cs, charListLt as bs = true → charListLt bs cs = true →
    charListLt as cs = true
  | [], bs, cs => by
      intro h1 h2
      cases bs with
      | nil => simp [charListLt] at h1
      | cons b bs =>
          cases cs with
          | nil => simp [charListLt] at h2
          | cons c cs => simp [charListLt]
  | _ :: _, [], _ => by
      intro h1 _
      simp [charListLt] at h1
  | a :: as, b :: bs, [] => by
      intro _ h2
      simp [charListLt] at h2
  | a :: as, b :: bs, c :: cs => by
      intro h1 h2
      simp only [charListLt] at h1 h2 ⊢
      by_cases hab : a.toNat < b.toNat
      · by_cases hbc : b.toNat < c.toNat
        · have hac : a.toNat < c.toNat := by omega
          simp [hac]
        · by_cases hcb : c.toNat < b.toNat
          · simp [hbc, hcb] at h2
          · have hac : a.toNat < c.toNat := by omega
            simp [hac]
      · by_cases hba : b.toNat < a.toNat
        · simp [hab, hba] at h1
        · by_cases hbc : b.toNat < c.toNat
          · have hac : a.toNat < c.toNat := by omega
            simp [hac]
          · by_cases hcb : c.toNat < b.toNat
            · simp [hbc, hcb] at h2
            · have hac : ¬a.toNat < c.toNat := by omega
              have hca : ¬c.toNat < a.toNat := by omega
              simp only [hab, hba, if_false] at h1
              simp only [hbc, hcb, if_false] at h2
              simp only [hac, hca, if_false]
              exact charListLt_trans as bs cs h1 h2

theorem charListLt_connex : ∀ as bs, as ≠ bs →
    charListLt as bs = true ∨ charListLt bs as = true
  | [], [] => fun h => absurd rfl h
  | [], _ :: _ => fun _ => Or.inl (by simp [charListLt])
  | _ :: _, [] => fun _ => Or.inr (by simp [charListLt])
  | a :: as, b :: bs => by
      intro h
      by_cases hab : a.toNat < b.toNat
      · exact Or.inl (by simp [charListLt, hab])
      · by_cases hba : b.toNat < a.toNat
        · exact Or.inr (by simp [charListLt, hba])
        · have hchar : a = b := char_toNat_inj (by omega)
          subst hchar
          have htail : as ≠ bs := by
            intro hh
            exact h (by rw [hh])
          rcases charListLt_connex as bs htail with ht | ht
          · exact Or.inl (by simp [charListLt, ht])
          · exact Or.inr (by simp [charListLt, ht])

theorem strLtB_irrefl (a : String) : strLtB a a = false := charListLt_irrefl a.data

theorem strLtB_asymm {a b : String} (h : strLtB a b = true) : strLtB b a = false :=
  charListLt_asymm a.data b.data h

theorem strLtB_trans {a b c : String} (h1 : strLtB a b = true) (h2 : strLtB b c = true) :
    strLtB a c = true :=
  charListLt_trans a.data b.data c.data h1 h2

theorem strLtB_connex {a b : String} (h : a ≠ b) : strLtB a b = true ∨ strLtB b a = true := by
  refine charListLt_connex a.data b.data ?_
  intro hd
  refine h ?_
  cases a
  cases b
  simp only at hd
  rw [hd]

theorem strLtB_ne {a b : String} (h : strLtB a b = true) : a ≠ b := by
  rintro rfl
  rw [strLtB_irrefl] at h
  exact Bool.noConfusion h

theorem insertMember_mem (k : String) (v : Json) :
    ∀ (ms : List (String × Json)) (x : String × Json), x ∈ insertMember k v ms →
      x = (k, v) ∨ x ∈ ms
  | [], x => by simp [insertMember]
  | (k0, v0) :: rest, x => by
      simp only [insertMember]
      split
      · intro hx
        rcases List.mem_cons.mp hx with rfl | hx
        · exact Or.inl rfl
        · exact Or.inr hx
      · split
        · intro hx
          rcases List.mem_cons.mp hx with rfl | hx
          · exact Or.inl rfl
          · exact Or.inr (List.mem_cons_of_mem _ hx)
        · intro hx
          rcases List.mem_cons.mp hx with rfl | hx
          · exact Or.inr (List.mem_cons_self _ _)
          · rcases insertMember_mem k v rest x hx with hh | hh
            · exact Or.inl hh
            · exact Or.inr (List.mem_cons_of_mem _ hh)

theorem insertMember_pairwise (k : String) (v : Json) :
    ∀ ms : List (String × Json),
      List.Pairwise (fun x y => strLtB x.1 y.1 = true) ms →
      List.Pairwise (fun x y => strLtB x.1 y.1 = true) (insertMember k v ms)
  | [], _ => by simp [insertMember]
  | (k0, v0) :: rest, hp => by
      rw [List.pairwise_cons] at hp
      obtain ⟨hhead, htail⟩ := hp
      simp only [insertMember]
      by_cases h1 : strLtB k k0 = true
      · simp only [h1, if_true]
        rw [List.pairwise_cons]
        refine ⟨?_, by rw [List.pairwise_cons]; exact ⟨hhead, htail⟩⟩
        intro x hx
        rcases List.mem_cons.mp hx with rfl | hx
        · exact h1
        · exact strLtB_trans h1 (hhead x hx)
      · rw [if_neg (by simpa using h1)]
        by_cases h2 : k = k0
        · simp only [h2, if_true]
          rw [List.pairwise_cons]
          refine ⟨?_, htail⟩
          intro x hx
          have := hhead x hx
          simp only at this ⊢
          exact this
        · simp only [h2, if_false]
          rw [List.pairwise_cons]
          constructor
          · intro x hx
            rcases insertMember_mem k v rest x hx with rfl | hx
            · simp only
              rcases strLtB_connex h2 with hh | hh
              · exact absurd hh h1
              · exact hh
            · exact hhead x hx
          · exact insertMember_pairwise k v rest htail

theorem sortMembers_pairwise_aux :
    ∀ (ms acc : List (String × Json)),
      List.Pairwise (fun x y => strLtB x.1 y.1 = true) acc →
      List.Pairwise (fun x y => strLtB x.1 y.1 = true)
        (List.foldl (fun a kv => insertMember kv.1 kv.2 a) acc ms)
  | [], acc, hp => hp
  | (k, v) :: ms, acc, hp => by
      rw [List.foldl_cons]
      exact sortMembers_pairwise_aux ms (insertMember k v acc)
        (insertMember_pairwise k v acc hp)

/-- The member map a parsed object holds is always strictly key-sorted. -/
theorem sortMembers_pairwise (ms : List (String × Json)) :
    List.Pairwise (fun x y => strLtB x.1 y.1 = true) (sortMembers ms) :=
  sortMembers_pairwise_aux ms [] List.Pairwise.nil

theorem sortMembers_mem_aux :
    ∀ (ms acc : List (String × Json)) (x : String × Json),
      x ∈ List.foldl (fun a kv => insertMember kv.1 kv.2 a) acc ms →
      x ∈ acc ∨ x ∈ ms
  | [], acc, x, hx => Or.inl hx
  | (k, v) :: ms, acc, x, hx => by
      rw [List.foldl_cons] at hx
      rcases sortMembers_mem_aux ms (insertMember k v acc) x hx with hh | hh
      · rcases insertMember_mem k v acc x hh with rfl | hh
        · exact Or.inr (by simp)
        · exact Or.inl hh
      · exact Or.inr (by simp [hh])

/-- Every member of a sorted map came from the raw member list. -/
theorem sortMembers_mem {ms : List (String × Json)} {x : String × Json}
    (hx : x ∈ sortMembers ms) : x ∈ ms := by
  rcases sortMembers_mem_aux ms [] x hx with hh | hh
  · exact absurd hh (List.not_mem_nil x)
  · exact hh

theorem insertMember_append_of_lt (k : String) (v : Json) :
    ∀ ms : List (String × Json), (∀ x ∈ ms, strLtB x.1 k = true) →
      insertMember k v ms = ms ++ [(k, v)]
  | [], _ => rfl
  | (k0, v0) :: rest, hlt => by
      have h0 : strLtB k0 k = true := hlt (k0, v0) (by simp)
      have h1 : strLtB k k0 = false := strLtB_asymm h0
      have h2 : k ≠ k0 := fun hh => strLtB_ne h0 hh.symm
      simp only [insertMember, h1, Bool.false_eq_true, if_false, h2]
      rw [insertMember_append_of_lt k v rest (fun x hx => hlt x (by simp [hx]))]
      simp

theorem sortMembers_sorted_aux :
    ∀ (ms acc : List (String × Json)),
      List.Pairwise (fun x y => strLtB x.1 y.1 = true) (acc ++ ms) →
      List.foldl (fun a kv => insertMember kv.1 kv.2 a) acc ms = acc ++ ms
  | [], acc, _ => by simp
  | (k, v) :: ms, acc, hp => by
      rw [List.foldl_cons]
      have hlt : ∀ x ∈ acc, strLtB x.1 k = true := by
        rw [List.pairwise_append] at hp
        intro x hx
        exact hp.2.2 x hx (k, v) (by simp)
      rw [insertMember_append_of_lt k v acc hlt]
      rw [sortMembers_sorted_aux ms (acc ++ [(k, v)]) (by simpa using hp)]
      simp

/-- Sorting a list that is already strictly sorted is the identity; the
round trip uses this to reparse a rendered object. -/
theorem sortMembers_sorted_id {ms : List (String × Json)}
    (hp : List.Pairwise (fun x y => strLtB x.1 y.1 = true) ms) : sortMembers ms = ms := by
  have := sortMembers_sorted_aux ms [] (by simpa using hp)
  simpa using this

/-! ### Parsed values satisfy the invariant -/

theorem parseNumberCore_floatDec (neg : Bool) (cs1 : List Char) (n : JsonNumber)
    (r : List Char) (h : parseNumberCore neg cs1 = some (n, r)) : isFloatDecimal n := by
  simp only [parseNumberCore] at h
  repeat' split at h
  all_goals
    first
    | exact Option.noConfusion h
    | (simp only [Option.some.injEq, Prod.mk.injEq] at h
       obtain ⟨rfl, rfl⟩ := h
       exact decToFloatDec_sound _ _ (by assumption))

theorem parseNumber_floatDec (cs : List Char) (n : JsonNumber) (r : List Char)
    (h : parseNumber cs = some (n, r)) : isFloatDecimal n := by
  simp only [parseNumber] at h
  repeat' split at h
  all_goals exact parseNumberCore_floatDec _ _ _ _ h

mutual

theorem parseVal_wf : ∀ (fuel d : Nat) (cs : List Char) (v : Json) (r : List Char),
    parseVal fuel d cs = some (v, r) → JsonWf v
  | 0, d, cs, v, r, h => by simp [parseVal] at h
  | fuel + 1, d, cs, v, r, h => by
      simp only [parseVal] at h
      repeat' split at h
      all_goals
        first
        | exact Option.noConfusion h
        | (simp only [Option.some.injEq, Prod.mk.injEq] at h
           obtain ⟨rfl, rfl⟩ := h
           first
           | exact JsonWf.null
           | exact JsonWf.bool _
           | exact JsonWf.str _
           | exact JsonWf.num _ (parseNumber_floatDec _ _ _ (by assumption))
           | exact JsonWf.arr _ (fun e he => absurd he (List.not_mem_nil e))
           | exact JsonWf.arr _ (parseElems_wf fuel (d + 1) _ _ _ (by assumption))
           | exact JsonWf.obj _ List.Pairwise.nil (fun kv hkv => absurd hkv (List.not_mem_nil kv))
           | exact JsonWf.obj _ (sortMembers_pairwise _)
               (fun kv hkv =>
                 parseMembers_wf fuel (d + 1) _ _ _ (by assumption) kv (sortMembers_mem hkv)))

theorem parseElems_wf : ∀ (fuel d : Nat) (cs : List Char) (es : List Json) (r : List Char),
    parseElems fuel d cs = some (es, r) → ∀ e ∈ es, JsonWf e
  | 0, d, cs, es, r, h => by simp [parseElems] at h
  | fuel + 1, d, cs, es, r, h => by
      simp only [parseElems] at h
      repeat' split at h
      all_goals
        first
        | exact Option.noConfusion h
        | (simp only [Option.some.injEq, Prod.mk.injEq] at h
           obtain ⟨rfl, rfl⟩ := h
           intro e he
           first
           | (rcases List.mem_cons.mp he with rfl | he1
              · exact parseVal_wf fuel d _ _ _ (by assumption)
              · exact parseElems_wf fuel d _ _ _ (by assumption) e he1)
           | (have he2 : e = _ := List.mem_singleton.mp he
              subst he2
              exact parseVal_wf fuel d _ _ _ (by assumption)))

theorem parseMembers_wf : ∀ (fuel d : Nat) (cs : List Char) (ms : List (String × Json))
    (r : List Char), parseMembers fuel d cs = some (ms, r) → ∀ kv ∈ ms, JsonWf kv.2
  | 0, d, cs, ms, r, h => by simp [parseMembers] at h
  | fuel + 1, d, cs, ms, r, h => by
      simp only [parseMembers] at h
      repeat' split at h
      all_goals
        first
        | exact Option.noConfusion h
        | (simp only [Option.some.injEq, Prod.mk.injEq] at h
           obtain ⟨rfl, rfl⟩ := h
           intro kv hkv
           first
           | (rcases List.mem_cons.mp hkv with rfl | hkv1
              · exact parseVal_wf fuel d _ _ _ (by assumption)
              · exact parseMembers_wf fuel d _ _ _ (by assumption) kv hkv1)
           | (have hkv2 : kv = _ := List.mem_singleton.mp hkv
              subst hkv2
              exact parseVal_wf fuel d _ _ _ (by assumption)))

end

/-- Every document `parseJson` accepts is well-formed. -/
theorem parseJson_wf {s : String} {v : Json} (h : parseJson s = some v) : JsonWf v := by
  simp only [parseJson] at h
  split at h
  · rename_i v0 r0 heq
    split at h
    · simp only [Option.some.injEq] at h
      subst h
      exact parseVal_wf _ _ _ _ _ heq
    · exact Option.noConfusion h
  · exact Option.noConfusion h

/-! ### Parsed values respect the depth limit -/

theorem jsonDepthList_le {e : Json} : ∀ {es : List Json}, e ∈ es →
    jsonDepth e ≤ jsonDepthList es
  | [], h => absurd h (List.not_mem_nil e)
  | x :: xs, h => by
      rcases List.mem_cons.mp h with rfl | h1
      · simp only [jsonDepthList]
        exact le_max_left _ _
      · simp only [jsonDepthList]
        exact le_trans (jsonDepthList_le h1) (le_max_right _ _)

theorem jsonDepthMembers_le {kv : String × Json} : ∀ {ms : List (String × Json)}, kv ∈ ms →
    jsonDepth kv.2 ≤ jsonDepthMembers ms
  | [], h => absurd h (List.not_mem_nil kv)
  | x :: xs, h => by
      rcases List.mem_cons.mp h with rfl | h1
      · simp only [jsonDepthMembers]
        exact le_max_left _ _
      · simp only [jsonDepthMembers]
        exact le_trans (jsonDepthMembers_le h1) (le_max_right _ _)

theorem jsonDepthMembers_bound {D : Nat} : ∀ {ms : List (String × Json)},
    (∀ kv ∈ ms, jsonDepth kv.2 ≤ D) → jsonDepthMembers ms ≤ D
  | [], _ => by
      simp only [jsonDepthMembers]
      omega
  | kv :: ms, h => by
      simp only [jsonDepthMembers]
      have h1 := h kv (by simp)
      have h2 := @jsonDepthMembers_bound D ms (fun x hx => h x (List.mem_cons_of_mem _ hx))
      omega

/-- Dropping duplicate keys cannot deepen the member list. -/
theorem jsonDepthMembers_sortMembers (ms : List (String × Json)) :
    jsonDepthMembers (sortMembers ms) ≤ jsonDepthMembers ms :=
  jsonDepthMembers_bound (fun _ hkv => jsonDepthMembers_le (sortMembers_mem hkv))

mutual

theorem parseVal_depth : ∀ (fuel d : Nat) (cs : List Char) (v : Json) (r : List Char),
    parseVal fuel d cs = some (v, r) → jsonDepth v ≤ 10000 - d
  | 0, d, cs, v, r, h => by simp [parseVal] at h
  | fuel + 1, d, cs, v, r, h => by
      simp only [parseVal] at h
      repeat' split at h
      all_goals
        first
        | exact Option.noConfusion h
        | (simp only [Option.some.injEq, Prod.mk.injEq] at h
           obtain ⟨rfl, rfl⟩ := h
           first
           | (simp only [jsonDepth]
              omega)
           | (have h1 := parseElems_depth fuel (d + 1) _ _ _ (by assumption)
              simp only [jsonDepth]
              omega)
           | (have h1 := parseMembers_depth fuel (d + 1) _ _ _ (by assumption)
              have h2 := le_trans (jsonDepthMembers_sortMembers _) h1
              simp only [jsonDepth]
              omega)
           | (simp only [jsonDepth, jsonDepthList, jsonDepthMembers]
              omega))

theorem parseElems_depth : ∀ (fuel d : Nat) (cs : List Char) (es : List Json)
    (r : List Char), parseElems fuel d cs = some (es, r) →
    jsonDepthList es ≤ 10000 - d
  | 0, d, cs, es, r, h => by simp [parseElems] at h
  | fuel + 1, d, cs, es, r, h => by
      simp only [parseElems] at h
      repeat' split at h
      all_goals
        first
        | exact Option.noConfusion h
        | (simp only [Option.some.injEq, Prod.mk.injEq] at h
           obtain ⟨rfl, rfl⟩ := h
           first
           | (have h1 := parseVal_depth fuel d _ _ _ (by assumption)
              have h2 := parseElems_depth fuel d _ _ _ (by assumption)
              simp only [jsonDepthList]
              omega)
           | (have h1 := parseVal_depth fuel d _ _ _ (by assumption)
              simp only [jsonDepthList]
              omega))

theorem parseMembers_depth : ∀ (fuel d : Nat) (cs : List Char)
    (ms : List (String × Json)) (r : List Char), parseMembers fuel d cs = some (ms, r) →
    jsonDepthMembers ms ≤ 10000 - d
  | 0, d, cs, ms, r, h => by simp [parseMembers] at h
  | fuel + 1, d, cs, ms, r, h => by
      simp only [parseMembers] at h
      repeat' split at h
      all_goals
        first
        | exact Option.noConfusion h
        | (simp only [Option.some.injEq, Prod.mk.injEq] at h
           obtain ⟨rfl, rfl⟩ := h
           first
           | (have h1 := parseVal_depth fuel d _ _ _ (by assumption)
              have h2 := parseMembers_depth fuel d _ _ _ (by assumption)
              simp only [jsonDepthMembers]
              omega)
           | (have h1 := parseVal_depth fuel d _ _ _ (by assumption)
              simp only [jsonDepthMembers]
              omega))

end

/-- Every document `parseJson` accepts fits in the scanner depth limit. -/
theorem parseJson_depth {s : String} {v : Json} (h : parseJson s = some v) :
    jsonDepth v ≤ 10000 := by
  simp only [parseJson] at h
  split at h
  · rename_i v0 r0 heq
    split at h
    · simp only [Option.some.injEq] at h
      subst h
      have := parseVal_depth _ _ _ _ _ heq
      omega
    · exact Option.noConfusion h
  · exact Option.noConfusion h

/-! ### The codec round trip -/

theorem numStop_head {c : Char} (x : List Char)
    (h : (isDigitChar c || c == '.' || c == 'e' || c == 'E') = false) :
    numStop (c :: x) = true := by
  simp only [numStop, h]
  rfl

theorem digit_ne_of {c d : Char} (h : isDigitChar c = true)
    (hd : isDigitChar d = false) : c ≠ d := by
  rintro rfl
  rw [h] at hd
  exact Bool.noConfusion hd

theorem digit_heads {c : Char} (h : isDigitChar c = true) :
    c ≠ '"' ∧ c ≠ '[' ∧ c ≠ '\x7b' ∧ c ≠ 'n' ∧ c ≠ 't' ∧ c ≠ 'f' ∧
      c ≠ ']' ∧ c ≠ '\x7d' ∧ isJsonWs c = false := by
  have hws : isJsonWs c = false := by
    have d1 := digit_ne_of h (show isDigitChar ' ' = false by decide)
    have d2 := digit_ne_of h (show isDigitChar '\t' = false by decide)
    have d3 := digit_ne_of h (show isDigitChar '\n' = false by decide)
    have d4 := digit_ne_of h (show isDigitChar '\r' = false by decide)
    simp [isJsonWs, d1, d2, d3, d4]
  exact ⟨digit_ne_of h (by decide), digit_ne_of h (by decide), digit_ne_of h (by decide),
    digit_ne_of h (by decide), digit_ne_of h (by decide), digit_ne_of h (by decide),
    digit_ne_of h (by decide), digit_ne_of h (by decide), hws⟩

/-- Every rendered value begins with a character that closes neither an
array nor an object and is not whitespace. -/
theorem renderL_head (j : Json) :
    ∃ c t, renderL j = c :: t ∧ c ≠ ']' ∧ c ≠ '\x7d' ∧ isJsonWs c = false := by
  cases j with
  | num n =>
      by_cases hneg : n.neg
      · refine ⟨'-', natDigits n.mantissa ++ expChars n.exponent10, ?_, ?_, ?_, ?_⟩
        · simp [renderL, renderNumber, hneg]
        all_goals decide
      · obtain ⟨c, t, hct, hdig⟩ := natDigits_head_shape n.mantissa
        obtain ⟨_, _, _, _, _, _, hbr, hbc, hws⟩ := digit_heads hdig
        refine ⟨c, t ++ expChars n.exponent10, ?_, hbr, hbc, hws⟩
        simp [renderL, renderNumber, hneg, hct]
  | null =>
      refine ⟨'n', ['u', 'l', 'l'], rfl, ?_, ?_, ?_⟩ <;> decide
  | bool b =>
      cases b
      · refine ⟨'f', ['a', 'l', 's', 'e'], rfl, ?_, ?_, ?_⟩ <;> decide
      · refine ⟨'t', ['r', 'u', 'e'], rfl, ?_, ?_, ?_⟩ <;> decide
  | str s =>
      refine ⟨'"', s.data.flatMap escapeChar ++ ['"'], rfl, ?_, ?_, ?_⟩ <;> decide
  | arr es =>
      refine ⟨'[', renderList es ++ [']'], rfl, ?_, ?_, ?_⟩ <;> decide
  | obj ms =>
      refine ⟨'\x7b', renderMembers ms ++ ['\x7d'], rfl, ?_, ?_, ?_⟩ <;> decide

theorem skipWs_not_ws {c : Char} {t : List Char} (h : isJsonWs c = false) :
    skipWs (c :: t) = c :: t := by
  simp [skipWs, h]

theorem skipWs_renderL (j : Json) (x : List Char) :
    skipWs (renderL j ++ x) = renderL j ++ x := by
  obtain ⟨c, t, hct, _, _, hws⟩ := renderL_head j
  rw [hct, List.cons_append]
  exact skipWs_not_ws hws

/-- A value whose input starts with a number character parses through
`parseNumber`. -/
theorem parseVal_to_number (f d : Nat) (c : Char) (t : List Char)
    (hws : isJsonWs c = false) (hn : c ≠ 'n') (ht : c ≠ 't') (hf : c ≠ 'f')
    (hq : c ≠ '"') (hlb : c ≠ '[') (hob : c ≠ '{')
    (hg : (c == '-' || isDigitChar c) = true) :
    parseVal (f + 1) d (c :: t)
      = match parseNumber (c :: t) with
        | some (nn, r1) => some (.num nn, r1)
        | none => none := by
  simp only [parseVal, skipWs_not_ws hws]
  simp [hn, ht, hf, hq, hlb, hob, hg]

/-- The rendered-number case of the round trip. -/
theorem parseVal_num_case (f d : Nat) (n : JsonNumber) (hn : isFloatDecimal n)
    (rest : List Char) (hr : numStop rest = true) :
    parseVal (f + 1) d (renderNumber n ++ rest) = some (.num n, rest) := by
  have hp := parseNumber_render n hn rest hr
  by_cases hneg : n.neg
  · have harg : renderNumber n ++ rest
        = '-' :: (natDigits n.mantissa ++ expChars n.exponent10 ++ rest) := by
      simp [renderNumber, hneg]
    rw [harg, parseVal_to_number f d '-' _ (by decide) (by decide) (by decide) (by decide)
      (by decide) (by decide) (by decide) (by decide), ← harg, hp]
  · obtain ⟨c, t, hct, hdig⟩ := natDigits_head_shape n.mantissa
    obtain ⟨hnq, hnlb, hnob, hnn, hnt, hnf, _, _, hws⟩ := digit_heads hdig
    have harg : renderNumber n ++ rest
        = c :: (t ++ (expChars n.exponent10 ++ rest)) := by
      simp [renderNumber, hneg, hct]
    rw [harg, parseVal_to_number f d c _ hws hnn hnt hnf hnq hnlb hnob (by simp [hdig]),
      ← harg, hp]

theorem renderList_cons (e : Json) (es : List Json) :
    renderList (e :: es)
      = renderL e ++ (if es.isEmpty then [] else ',' :: renderList es) := by
  cases es with
  | nil => simp [renderList]
  | cons e2 es2 => simp [renderList]

theorem renderMembers_cons (k : String) (v : Json) (ms : List (String × Json)) :
    renderMembers ((k, v) :: ms)
      = renderString k ++ ':' :: renderL v
          ++ (if ms.isEmpty then [] else ',' :: renderMembers ms) := by
  cases ms with
  | nil => simp [renderMembers]
  | cons m2 ms2 => simp [renderMembers]

/-- The array branch of `parseVal` on a nonempty rendered element list
reduces to `parseElems`. -/
theorem parseVal_to_elems (f d : Nat) (hd : ¬10000 ≤ d) (e : Json) (es : List Json)
    (rest : List Char) :
    parseVal (f + 1) d ('[' :: (renderList (e :: es) ++ ']' :: rest))
      = match parseElems f (d + 1) (renderList (e :: es) ++ ']' :: rest) with
        | some (vs, r2) => some (.arr vs, r2)
        | none => none := by
  obtain ⟨c, t, hct, hbr, _, hws⟩ := renderL_head e
  have htail : renderList (e :: es) ++ ']' :: rest
      = c :: (t ++ ((if es.isEmpty then [] else ',' :: renderList es) ++ ']' :: rest)) := by
    rw [renderList_cons, hct]
    simp
  have step : parseVal (f + 1) d ('[' :: (renderList (e :: es) ++ ']' :: rest))
      = (if 10000 ≤ d then none
         else match skipWs (renderList (e :: es) ++ ']' :: rest) with
         | [] => none
         | c2 :: r1 =>
             if c2 = ']' then some (.arr [], r1)
             else
               match parseElems f (d + 1) (c2 :: r1) with
               | some (es2, r2) => some (.arr es2, r2)
               | none => none) := rfl
  rw [step, if_neg hd, htail, skipWs_not_ws hws]
  dsimp only
  rw [if_neg hbr]

/-- The object branch of `parseVal` on a nonempty rendered member list
reduces to `parseMembers`. -/
theorem parseVal_to_members (f d : Nat) (hd : ¬10000 ≤ d) (k : String) (v : Json)
    (ms : List (String × Json)) (rest : List Char) :
    parseVal (f + 1) d ('{' :: (renderMembers ((k, v) :: ms) ++ '}' :: rest))
      = match parseMembers f (d + 1) (renderMembers ((k, v) :: ms) ++ '}' :: rest) with
        | some (ms2, r2) => some (.obj (sortMembers ms2), r2)
        | none => none := by
  have htail : renderMembers ((k, v) :: ms) ++ '}' :: rest
      = '"' :: (k.data.flatMap escapeChar
          ++ ('"' :: (':' :: (renderL v
          ++ ((if ms.isEmpty then [] else ',' :: renderMembers ms) ++ '}' :: rest))))) := by
    rw [renderMembers_cons, renderString]
    simp
  have step : parseVal (f + 1) d ('{' :: (renderMembers ((k, v) :: ms) ++ '}' :: rest))
      = (if 10000 ≤ d then none
         else match skipWs (renderMembers ((k, v) :: ms) ++ '}' :: rest) with
         | [] => none
         | c2 :: r1 =>
             if c2 = '}' then some (.obj [], r1)
             else
               match parseMembers f (d + 1) (c2 :: r1) with
               | some (ms2, r2) => some (.obj (sortMembers ms2), r2)
               | none => none) := rfl
  rw [step, if_neg hd, htail, skipWs_not_ws (by decide)]
  dsimp only
  rw [if_neg (show ¬('"' = '}') by decide)]

theorem renderL_length_pos (j : Json) : 1 ≤ (renderL j).length := by
  obtain ⟨c, t, hct, _, _, _⟩ := renderL_head j
  rw [hct]
  simp

mutual

theorem rt_val : ∀ (fuel d : Nat) (j : Json) (rest : List Char), JsonWf j →
    (renderL j).length < fuel → numStop rest = true → jsonDepth j + d ≤ 10000 →
    parseVal fuel d (renderL j ++ rest) = some (j, rest)
  | 0, d, j, rest, _, hf, _, _ => absurd hf (by omega)
  | fuel + 1, d, j, rest, hwf, hf, hr, hdep => by
      cases hwf with
      | null => rfl
      | bool b => cases b <;> rfl
      | str s =>
          have harg : renderL (.str s) ++ rest
              = '"' :: (s.data.flatMap escapeChar ++ ('"' :: rest)) := by
            simp [renderL, renderString]
          rw [harg]
          have step : parseVal (fuel + 1) d ('"' :: (s.data.flatMap escapeChar ++ ('"' :: rest)))
              = (match parseStringBody [] (s.data.flatMap escapeChar ++ ('"' :: rest)) with
                 | some (s1, r1) => some (.str s1, r1)
                 | none => none) := rfl
          rw [step, parseStringBody_render]
      | num n hn => exact parseVal_num_case fuel d n hn rest hr
      | arr es hes =>
          have hd : ¬10000 ≤ d := by
            simp only [jsonDepth] at hdep
            omega
          cases es with
          | nil =>
              have step : parseVal (fuel + 1) d (renderL (.arr []) ++ rest)
                  = if 10000 ≤ d then none else some (.arr [], rest) := rfl
              rw [step, if_neg hd]
          | cons e es2 =>
              have hlen : (renderList (e :: es2)).length + 1 < fuel := by
                simp only [renderL, List.length_cons, List.length_append,
                  List.length_singleton] at hf
                omega
              have hdep2 : jsonDepthList (e :: es2) + (d + 1) ≤ 10000 := by
                simp only [jsonDepth] at hdep
                omega
              have harr : renderL (.arr (e :: es2)) ++ rest
                  = '[' :: (renderList (e :: es2) ++ ']' :: rest) := by
                simp [renderL]
              rw [harr, parseVal_to_elems fuel d hd,
                rt_elems fuel (d + 1) e es2 rest hes hlen hr hdep2]
      | obj ms hp hvals =>
          have hd : ¬10000 ≤ d := by
            simp only [jsonDepth] at hdep
            omega
          cases ms with
          | nil =>
              have step : parseVal (fuel + 1) d (renderL (.obj []) ++ rest)
                  = if 10000 ≤ d then none else some (.obj [], rest) := rfl
              rw [step, if_neg hd]
          | cons kv ms2 =>
              obtain ⟨k, v⟩ := kv
              have hlen : (renderMembers ((k, v) :: ms2)).length + 1 < fuel := by
                simp only [renderL, List.length_cons, List.length_append,
                  List.length_singleton] at hf
                omega
              have hdep2 : jsonDepthMembers ((k, v) :: ms2) + (d + 1) ≤ 10000 := by
                simp only [jsonDepth] at hdep
                omega
              have hobj : renderL (.obj ((k, v) :: ms2)) ++ rest
                  = '{' :: (renderMembers ((k, v) :: ms2) ++ '}' :: rest) := by
                simp [renderL]
              rw [hobj, parseVal_to_members fuel d hd,
                rt_members fuel (d + 1) k v ms2 rest hvals hlen hr hdep2]
              dsimp only
              rw [sortMembers_sorted_id hp]

theorem rt_elems : ∀ (fuel d : Nat) (e : Json) (es : List Json) (rest : List Char),
    (∀ x ∈ e :: es, JsonWf x) → (renderList (e :: es)).length + 1 < fuel →
    numStop rest = true → jsonDepthList (e :: es) + d ≤ 10000 →
    parseElems fuel d (renderList (e :: es) ++ ']' :: rest) = some (e :: es, rest)
  | 0, d, e, es, rest, _, hf, _, _ => absurd hf (by omega)
  | fuel + 1, d, e, es, rest, hwf, hf, hr, hdep => by
      cases es with
      | nil =>
          have h1 : renderList [e] ++ ']' :: rest = renderL e ++ ']' :: rest := by
            simp [renderList]
          have hfe : (renderL e).length < fuel := by
            simp only [renderList, List.length_cons] at hf
            omega
          have hde : jsonDepth e + d ≤ 10000 := by
            simp only [jsonDepthList] at hdep
            omega
          have hv := rt_val fuel d e (']' :: rest) (hwf e (by simp)) hfe
            (numStop_head _ (by decide)) hde
          rw [h1]
          simp only [parseElems]
          rw [hv]
          dsimp only
          rw [skipWs_not_ws (by decide)]
          rfl
      | cons x xs =>
          have hepos := renderL_length_pos e
          have hsplit : renderList (e :: x :: xs) ++ ']' :: rest
              = renderL e ++ (',' :: (renderList (x :: xs) ++ ']' :: rest)) := by
            simp [renderList]
          have hfe : (renderL e).length < fuel := by
            simp only [renderList, List.length_append, List.length_cons] at hf
            omega
          have hfx : (renderList (x :: xs)).length + 1 < fuel := by
            simp only [renderList, List.length_append, List.length_cons] at hf
            omega
          have hde : jsonDepth e + d ≤ 10000 := by
            simp only [jsonDepthList] at hdep
            omega
          have hdx : jsonDepthList (x :: xs) + d ≤ 10000 := by
            simp only [jsonDepthList] at hdep ⊢
            omega
          have hv := rt_val fuel d e (',' :: (renderList (x :: xs) ++ ']' :: rest))
            (hwf e (by simp)) hfe (numStop_head _ (by decide)) hde
          have hx := rt_elems fuel d x xs rest (fun y hy => hwf y (by simp [hy])) hfx hr hdx
          rw [hsplit]
          simp only [parseElems]
          rw [hv]
          simp [skipWs, isJsonWs, hx]

theorem rt_members : ∀ (fuel d : Nat) (k : String) (v : Json)
    (ms : List (String × Json)) (rest : List Char),
    (∀ x ∈ (k, v) :: ms, JsonWf x.2) →
    (renderMembers ((k, v) :: ms)).length + 1 < fuel → numStop rest = true →
    jsonDepthMembers ((k, v) :: ms) + d ≤ 10000 →
    parseMembers fuel d (renderMembers ((k, v) :: ms) ++ '}' :: rest)
      = some ((k, v) :: ms, rest)
  | 0, d, k, v, ms, rest, _, hf, _, _ => absurd hf (by omega)
  | fuel + 1, d, k, v, ms, rest, hwf, hf, hr, hdep => by
      cases ms with
      | nil =>
          have harg : renderMembers [(k, v)] ++ '}' :: rest
              = '"' :: (k.data.flatMap escapeChar
                  ++ ('"' :: (':' :: (renderL v ++ '}' :: rest)))) := by
            simp [renderMembers, renderString]
          have hfv : (renderL v).length < fuel := by
            simp only [renderMembers, renderString, List.length_append,
              List.length_cons] at hf
            omega
          have hdv : jsonDepth v + d ≤ 10000 := by
            simp only [jsonDepthMembers] at hdep
            omega
          have hv := rt_val fuel d v ('}' :: rest) (hwf (k, v) (by simp)) hfv
            (numStop_head _ (by decide)) hdv
          rw [harg]
          simp only [parseMembers]
          simp [skipWs, isJsonWs, parseStringBody_render, hv]
      | cons kv2 ms2 =>
          obtain ⟨k2, v2⟩ := kv2
          have hvpos := renderL_length_pos v
          have harg : renderMembers ((k, v) :: (k2, v2) :: ms2) ++ '}' :: rest
              = '"' :: (k.data.flatMap escapeChar
                  ++ ('"' :: (':' :: (renderL v
                      ++ (',' :: (renderMembers ((k2, v2) :: ms2) ++ '}' :: rest)))))) := by
            simp [renderMembers, renderString]
          have hfv : (renderL v).length < fuel := by
            simp only [renderMembers, renderString, List.length_append,
              List.length_cons] at hf
            omega
          have hfm : (renderMembers ((k2, v2) :: ms2)).length + 1 < fuel := by
            simp only [renderMembers, renderString, List.length_append,
              List.length_cons] at hf
            omega
          have hdv : jsonDepth v + d ≤ 10000 := by
            simp only [jsonDepthMembers] at hdep
            omega
          have hdm : jsonDepthMembers ((k2, v2) :: ms2) + d ≤ 10000 := by
            simp only [jsonDepthMembers] at hdep ⊢
            omega
          have hv := rt_val fuel d v
            (',' :: (renderMembers ((k2, v2) :: ms2) ++ '}' :: rest))
            (hwf (k, v) (by simp)) hfv (numStop_head _ (by decide)) hdv
          have hx := rt_members fuel d k2 v2 ms2 rest (fun y hy => hwf y (by simp [hy]))
            hfm hr hdm
          rw [harg]
          simp only [parseMembers]
          simp [skipWs, isJsonWs, parseStringBody_render, hv, hx]

end

/-- Parsing a rendered well-formed value within the depth limit gives it
back: the canonical serialization has a left inverse on parsed values. -/
theorem parseJson_render {v : Json} (hwf : JsonWf v) (hdep : jsonDepth v ≤ 10000) :
    parseJson (renderJson v) = some v := by
  have h := rt_val ((renderL v).length + 1) 0 v [] hwf (by omega) rfl (by omega)
  rw [List.append_nil] at h
  have hdata : (renderJson v).data = renderL v := rfl
  simp only [parseJson, hdata, List.length_append, h]
  simp [skipWs]

/-- The canonical serialization is injective on well-formed values within
the depth limit. -/
theorem renderJson_inj_wf {a b : Json} (ha : JsonWf a) (hb : JsonWf b)
    (hda : jsonDepth a ≤ 10000) (hdb : jsonDepth b ≤ 10000)
    (h : renderJson a = renderJson b) : a = b := by
  have h1 := parseJson_render ha hda
  have h2 := parseJson_render hb hdb
  rw [h, h2] at h1
  exact (Option.some.inj h1).symm

/-- C3: when both policy strings parse as JSON, `policiesSemanticallyEqual`
returns exactly the byte-equality of their canonical re-serializations; two
documents that parse to the same value (in particular, differing only in
object key order or whitespace) compare equal, and two documents that parse
to different values compare unequal. -/
theorem policiesSemanticallyEqual_canonical :
    (∀ (a b : String) (va vb : Json), parseJson a = some va → parseJson b = some vb →
      policiesSemanticallyEqual a b = (renderJson va == renderJson vb)) ∧
    (∀ (a b : String) (v : Json), parseJson a = some v → parseJson b = some v →
      policiesSemanticallyEqual a b = true) ∧
    (∀ (a b : String) (va vb : Json), parseJson a = some va → parseJson b = some vb →
      va ≠ vb → policiesSemanticallyEqual a b = false) := by
  have hmain : ∀ (a b : String) (va vb : Json), parseJson a = some va →
      parseJson b = some vb →
      policiesSemanticallyEqual a b = (renderJson va == renderJson vb) := by
    intro a b va vb ha hb
    simp [policiesSemanticallyEqual, normalizeJSONString, ha, hb]
  refine ⟨hmain, ?_, ?_⟩
  · intro a b v ha hb
    rw [hmain a b v v ha hb]
    simp
  · intro a b va vb ha hb hne
    rw [hmain a b va vb ha hb]
    have hr : renderJson va ≠ renderJson vb := by
      intro hh
      exact hne (renderJson_inj_wf (parseJson_wf ha) (parseJson_wf hb)
        (parseJson_depth ha) (parseJson_depth hb) hh)
    simp [hr]

/-- Witness for C3: two objects equal up to key order and whitespace compare
equal; documents with different values compare unequal. -/
theorem policiesSemanticallyEqual_canonical_witness :
    policiesSemanticallyEqual "\x7b\"b\":1,\"a\":2\x7d" "\x7b \"a\" : 2, \"b\" : 1 \x7d" = true ∧
    policiesSemanticallyEqual "1" "true" = false :=
  ⟨policiesSemanticallyEqual_canonical.2.1 _ _
      (.obj [("a", .num ⟨false, 2, 0⟩), ("b", .num ⟨false, 1, 0⟩)]) rfl rfl,
   policiesSemanticallyEqual_canonical.2.2 _ _ (.num ⟨false, 1, 0⟩) (.bool true) rfl rfl
      (fun h => Json.noConfusion h)⟩

/-- C4: when at least one policy string fails to parse as JSON, the
comparator falls back to equality of the whitespace-trimmed strings, and it
always returns a boolean. -/
theorem policiesSemanticallyEqual_fallback :
    (∀ a b : String, parseJson a = none ∨ parseJson b = none →
      policiesSemanticallyEqual a b = (goTrimSpace a == goTrimSpace b)) ∧
    (∀ a b : String,
      policiesSemanticallyEqual a b = true ∨ policiesSemanticallyEqual a b = false) := by
  constructor
  · intro a b h
    rcases h with h | h
    · simp [policiesSemanticallyEqual, normalizeJSONString, h]
    · rcases hpa : parseJson a with _ | va <;>
        simp [policiesSemanticallyEqual, normalizeJSONString, hpa, h]
  · intro a b
    cases policiesSemanticallyEqual a b
    · exact Or.inr rfl
    · exact Or.inl rfl

set_option maxRecDepth 40000 in
/-- Witness for C4: `"  x  "` does not parse as JSON, so it compares equal
to `"x"` by trimmed equality; `"1e999"` overflows float64 so
`json.Unmarshal` rejects it and the comparison with `"1.0e999"` falls back
to trimmed inequality. -/
theorem policiesSemanticallyEqual_fallback_witness :
    policiesSemanticallyEqual "  x  " "x" = true ∧
      policiesSemanticallyEqual "1e999" "1.0e999" = false :=
  ⟨(policiesSemanticallyEqual_fallback.1 "  x  " "x" (Or.inl rfl)).trans (by rfl),
    (policiesSemanticallyEqual_fallback.1 "1e999" "1.0e999" (Or.inl (by rfl))).trans (by rfl)⟩

end Seaweedfs